import Mathlib

/-!
# Polymarket CLOB sequencer — the specification checked against the source

A shallow embedding, in Lean 4, of the matcher (`cmd/matcher/matcher.go`), the
settlement submitter (`cmd/submitter/submitter.go`) and the HTTP admission
handler (`handleOrders` in the sequencer main) of the `polymarket-clob`
repository, together with theorems settling the frozen claims C1–C10 about the
natural-language specification.

Modelling conventions, used throughout and noted again at each definition:

* Go `float64` amounts and prices are modelled as exact rationals (`ℚ`).  The
  source parses decimal strings with `strconv.ParseFloat`, re-formats every
  mutated amount with `fmt.Sprintf("%.8f", ·)` (round to eight fractional
  digits, half to even) and re-parses it on the next loop iteration, so every
  stored amount is a decimal number with at most eight fractional digits; the
  specification (§9) notes the float representation is "safe only so long as
  prices are pre-quantized upstream".  The rational model performs the same
  quantisation (`round8`) exactly.  Binary-float rounding error of a single
  subtraction below half an ulp of the 8-digit grid is the one behaviour the
  model idealises away.
* Amount strings are modelled by their parse result: `AmountStr.num q` is a
  string `strconv.ParseFloat` reads as the value `q`, `AmountStr.bad s` is a
  string it rejects.
* SHA-256 is an external primitive; definitions that hash take the hash
  function as an explicit parameter (`HashEnv`), and the claims proved about
  them hold for every instantiation.
* Go slices become `List`/`Array`; a Go `for` loop becomes structural
  recursion on an explicit fuel argument, with the fuel chosen at the call
  site to dominate the loop's iteration count, so that every definition
  evaluates by kernel reduction on concrete inputs.
-/

namespace Clob

/-- The numerical tolerance ε = 1e-8 of `matcher.go` (the literal
`0.00000001` in the source, §4.1 of the spec). -/
def eps : ℚ := 1 / 100000000

/-- Round a rational to the nearest integer, ties to even — the rounding mode
of Go's `fmt.Sprintf("%.xf", ·)` formatting. -/
def roundHalfEven (x : ℚ) : ℤ :=
  if x - ⌊x⌋ < 1 / 2 then ⌊x⌋
  else if 1 / 2 < x - ⌊x⌋ then ⌊x⌋ + 1
  else if ⌊x⌋ % 2 = 0 then ⌊x⌋ else ⌊x⌋ + 1

/-- Quantisation to eight fractional digits: the exact value denoted by
`fmt.Sprintf("%.8f", x)` in `formatAmount` (`matcher.go`). -/
def round8 (q : ℚ) : ℚ := (roundHalfEven (q * 100000000) : ℚ) / 100000000

/-- An amount string, modelled by what `strconv.ParseFloat` makes of it:
`num q` parses to the value `q`, `bad s` fails to parse. -/
inductive AmountStr where
  | num (q : ℚ)
  | bad (s : String)
deriving DecidableEq

/-- The `Order` struct of `matcher.go` (maker, takerAsset, makeAmount,
takeAmount, price, timestamp, signature); amounts are strings on the wire,
price is a `float64`, timestamp an `int64`. -/
structure Order where
  maker : String
  takerAsset : String
  makeAmount : AmountStr
  takeAmount : AmountStr
  price : ℚ
  timestamp : ℤ
  signature : String
deriving DecidableEq

instance : Inhabited Order := ⟨⟨"", "", .bad "", .bad "", 0, 0, ""⟩⟩

/-- The `Fill` struct of `matcher.go`: maker hash, taker hash, and the fill
quantity.  The `Quantity` field is the string `formatAmount(fillQty)`; it is
modelled by the eight-digit value that string denotes. -/
structure Fill where
  makerHash : String
  takerHash : String
  quantity : ℚ
deriving DecidableEq

/-- Go `parseAmount` (`matcher.go`): parse the string; error when the parse
fails or the value is not positive.  `none` models the error return. -/
def parseAmount : AmountStr → Option ℚ
  | .num q => if q ≤ 0 then none else some q
  | .bad _ => none

/-- Go `formatAmount` (`matcher.go`): `fmt.Sprintf("%.8f", amount)`, i.e. the
amount quantised to eight fractional digits, as an (always parseable)
amount string. -/
def formatAmount (amount : ℚ) : AmountStr := .num (round8 amount)

end Clob

/-!
## Go `sort.Slice`

`sortOrders` and `splitBidsAsks` in `matcher.go` delegate to `sort.Slice` of
the Go standard library, which Go documents as **not** guaranteed to be
stable.  Modelled from the Go standard library implementation (Go 1.19+,
`sort/zsortfunc.go`): a pattern-defeating quicksort over an index range with
a user comparison, falling back to insertion sort below 13 elements and to
heapsort when the bad-pivot budget `limit` is exhausted.  All loops are
rendered as fuel recursion; the fuel at each call site dominates the loop
bound, so on in-range inputs the model computes exactly what the Go code
computes.
-/

namespace GoSort

variable {α : Type}

/-- Read `data[i]`; Go would panic out of range, which no modelled call path
reaches, so out-of-range reads return `default`. -/
def getIdx [Inhabited α] (xs : Array α) (i : Nat) : α := xs.getD i default

/-- Go `data.Swap(i, j)`; out of range (unreachable on the modelled paths)
leaves the array unchanged. -/
def swapIdx (xs : Array α) (i j : Nat) : Array α :=
  if h : i < xs.size ∧ j < xs.size then xs.swap ⟨i, h.1⟩ ⟨j, h.2⟩ else xs

/-- The inner loop of Go `insertionSort_func`: starting at position `j`,
swap downward while `j > a` and `data.Less(j, j-1)`. -/
def insertionInner [Inhabited α] (less : α → α → Bool) (a : Nat) :
    Array α → Nat → Array α
  | xs, 0 => xs
  | xs, j + 1 =>
    if a < j + 1 ∧ less (getIdx xs (j + 1)) (getIdx xs j) then
      insertionInner less a (swapIdx xs (j + 1) j) j
    else xs

/-- Go `insertionSort_func(data, a, b)`: insert `data[i]` for
`i = a+1 .. b-1`. -/
def insertionSortGo [Inhabited α] (less : α → α → Bool) (xs : Array α)
    (a b : Nat) : Array α :=
  (List.range' (a + 1) (b - (a + 1))).foldl (insertionInner less a) xs

/-- The loop of Go `siftDown_func(data, lo, hi, first)`; fuel-recursive on
the heap depth (the root index at least doubles each iteration). -/
def siftDownGo [Inhabited α] (less : α → α → Bool) :
    Nat → Array α → Nat → Nat → Nat → Array α
  | 0, xs, _, _, _ => xs
  | fuel + 1, xs, root, hi, first =>
    let child := 2 * root + 1
    if child ≥ hi then xs
    else
      let child :=
        if child + 1 < hi ∧ less (getIdx xs (first + child)) (getIdx xs (first + child + 1))
        then child + 1 else child
      if less (getIdx xs (first + root)) (getIdx xs (first + child)) then
        siftDownGo less fuel (swapIdx xs (first + root) (first + child)) child hi first
      else xs

/-- Go `heapSort_func(data, a, b)`: build a max-heap over `[a, b)`, then pop
repeatedly.  Reached only when the bad-pivot budget is exhausted. -/
def heapSortGo [Inhabited α] (less : α → α → Bool) (xs : Array α)
    (a b : Nat) : Array α :=
  let first := a
  let hi := b - a
  let heaped := (List.range ((hi - 1) / 2 + 1)).reverse.foldl
    (fun ys i => siftDownGo less hi ys i hi first) xs
  (List.range hi).reverse.foldl
    (fun ys i => siftDownGo less hi (swapIdx ys first (first + i)) 0 i first) heaped

/-- Go `reverseRange_func(data, a, b)`; fuel-recursive two-pointer reversal
of `data[a .. b-1]` (the second index argument here is already `b - 1`). -/
def reverseRangeGo : Nat → Array α → Nat → Nat → Array α
  | 0, xs, _, _ => xs
  | fuel + 1, xs, i, j =>
    if i < j then reverseRangeGo fuel (swapIdx xs i j) (i + 1) (j - 1) else xs

/-- Go `bits.Len(uint(n))` — the position of the highest set bit —
fuel-structural so that it evaluates by kernel reduction. -/
def bitsLenF : Nat → Nat → Nat
  | 0, _ => 0
  | fuel + 1, n => if n = 0 then 0 else bitsLenF fuel (n / 2) + 1

/-- Go `bits.Len(uint(n))`. -/
def bitsLen (n : Nat) : Nat := bitsLenF n n

/-- Go `xorshift.Next()` on a 64-bit state (used only by
`breakPatterns_func`, which no modelled call path reaches). -/
def xorshiftNext (r : Nat) : Nat :=
  let m := 2 ^ 64
  let r := (Nat.xor r ((r * 2 ^ 13) % m)) % m
  let r := (Nat.xor r (r / 2 ^ 7)) % m
  (Nat.xor r ((r * 2 ^ 17) % m)) % m

/-- Go `breakPatterns_func(data, a, b)`: scatter three elements around the
would-be pivot position using the xorshift generator seeded with the range
length.  Reached only after an unbalanced partition. -/
def breakPatternsGo (xs : Array α) (a b : Nat) : Array α :=
  let length := b - a
  if length ≥ 8 then
    let modulus := 2 ^ bitsLen length
    let idx := a + (length / 4) * 2 - 1
    let r0 := xorshiftNext length
    let r1 := xorshiftNext r0
    let r2 := xorshiftNext r1
    let pick := fun (r : Nat) =>
      let other := r % modulus
      if other ≥ length then other - length else other
    let xs := swapIdx xs (idx - 1) (a + pick r0)
    let xs := swapIdx xs idx (a + pick r1)
    swapIdx xs (idx + 1) (a + pick r2)
  else xs

/-- Go `order2_func(data, a, b, &swaps)`: order two positions by the
comparison, counting a swap of the index pair. -/
def order2 [Inhabited α] (less : α → α → Bool) (xs : Array α)
    (a b swaps : Nat) : Nat × Nat × Nat :=
  if less (getIdx xs b) (getIdx xs a) then (b, a, swaps + 1) else (a, b, swaps)

/-- Go `median_func(data, a, b, c, &swaps)`: the position of the median of
three, counting comparison swaps. -/
def medianGo [Inhabited α] (less : α → α → Bool) (xs : Array α)
    (a b c swaps : Nat) : Nat × Nat :=
  let (a, b, swaps) := order2 less xs a b swaps
  let (b, _, swaps) := order2 less xs b c swaps
  let (_, b, swaps) := order2 less xs a b swaps
  (b, swaps)

/-- Go `medianAdjacent_func(data, a, &swaps)`: median of `a-1, a, a+1`. -/
def medianAdjacent [Inhabited α] (less : α → α → Bool) (xs : Array α)
    (a swaps : Nat) : Nat × Nat :=
  medianGo less xs (a - 1) a (a + 1) swaps

/-- Sortedness hints of Go `choosePivot_func`. -/
inductive Hint where
  | unknown
  | increasing
  | decreasing
deriving DecidableEq

/-- Go `choosePivot_func(data, a, b)`: median (of medians, from 50 elements
up) of three positions at the quarters, plus a sortedness hint from the swap
count (`maxSwaps = 12`). -/
def choosePivot [Inhabited α] (less : α → α → Bool) (xs : Array α)
    (a b : Nat) : Nat × Hint :=
  let l := b - a
  let i := a + l / 4 * 1
  let j := a + l / 4 * 2
  let k := a + l / 4 * 3
  let (j, swaps) :=
    if l ≥ 8 then
      if l ≥ 50 then
        let (i, swaps) := medianAdjacent less xs i 0
        let (j, swaps) := medianAdjacent less xs j swaps
        let (k, swaps) := medianAdjacent less xs k swaps
        medianGo less xs i j k swaps
      else
        medianGo less xs i j k 0
    else (j, 0)
  if swaps = 0 then (j, Hint.increasing)
  else if swaps = 12 then (j, Hint.decreasing)
  else (j, Hint.unknown)

/-- The forward scan of Go `partition_func`: advance `i` while `i ≤ j` and
`data.Less(i, a)`. -/
def scanLess [Inhabited α] (less : α → α → Bool) (xs : Array α) (a : Nat) :
    Nat → Nat → Nat → Nat
  | 0, i, _ => i
  | fuel + 1, i, j =>
    if i ≤ j ∧ less (getIdx xs i) (getIdx xs a) then
      scanLess less xs a fuel (i + 1) j
    else i

/-- The backward scan of Go `partition_func`: retreat `j` while `i ≤ j` and
`!data.Less(j, a)`. -/
def scanNotLess [Inhabited α] (less : α → α → Bool) (xs : Array α) (a : Nat) :
    Nat → Nat → Nat → Nat
  | 0, _, j => j
  | fuel + 1, i, j =>
    if i ≤ j ∧ ¬ less (getIdx xs j) (getIdx xs a) then
      scanNotLess less xs a fuel i (j - 1)
    else j

/-- The swap loop of Go `partition_func` after the first exchange: scan from
both ends, exchanging out-of-place pairs until the pointers cross; finally
swap the pivot into place and report its position. -/
def partitionLoop [Inhabited α] (less : α → α → Bool) (a : Nat) :
    Nat → Array α → Nat → Nat → Array α × Nat
  | 0, xs, _, j => (swapIdx xs j a, j)
  | fuel + 1, xs, i, j =>
    let i := scanLess less xs a (j + 2) i j
    let j := scanNotLess less xs a (j + 2) i j
    if i > j then (swapIdx xs j a, j)
    else partitionLoop less a fuel (swapIdx xs i j) (i + 1) (j - 1)

/-- Go `partition_func(data, a, b, pivot)`: move the pivot to `a`, Hoare-scan
`[a+1, b-1]`, and return the array, the pivot's final position, and whether
the range was already partitioned. -/
def partitionGo [Inhabited α] (less : α → α → Bool) (xs : Array α)
    (a b pivot : Nat) : Array α × Nat × Bool :=
  let xs := swapIdx xs a pivot
  let i := scanLess less xs a (b + 1) (a + 1) (b - 1)
  let j := scanNotLess less xs a (b + 1) i (b - 1)
  if i > j then (swapIdx xs j a, j, true)
  else
    let r := partitionLoop less a (b - a) (swapIdx xs i j) (i + 1) (j - 1)
    (r.1, r.2, false)

/-- The swap loop of Go `partitionEqual_func`: its forward scan advances
while the element is `≤` the pivot, its backward scan retreats while the
element is `>` the pivot — both expressible through the generic scans with
the flipped comparison. -/
def partitionEqualLoop [Inhabited α] (less : α → α → Bool) (a : Nat) :
    Nat → Array α → Nat → Nat → Array α × Nat
  | 0, xs, i, _ => (xs, i)
  | fuel + 1, xs, i, j =>
    let i := scanLess (fun x y => !less y x) xs a (j + 2) i j
    let j := scanNotLess (fun x y => !less y x) xs a (j + 2) i j
    if i > j then (xs, i)
    else partitionEqualLoop less a fuel (swapIdx xs i j) (i + 1) (j - 1)

/-- Go `partitionEqual_func(data, a, b, pivot)`: partition elements equal to
the pivot to the front, returning the first strictly-greater position. -/
def partitionEqualGo [Inhabited α] (less : α → α → Bool) (xs : Array α)
    (a b pivot : Nat) : Array α × Nat :=
  let xs := swapIdx xs a pivot
  partitionEqualLoop less a (b - a) xs (a + 1) (b - 1)

/-- The forward run of Go `partialInsertionSort_func`: advance `i` while the
adjacent pair at `i` is in order. -/
def sortedRun [Inhabited α] (less : α → α → Bool) (xs : Array α) (b : Nat) :
    Nat → Nat → Nat
  | 0, i => i
  | fuel + 1, i =>
    if i < b ∧ ¬ less (getIdx xs i) (getIdx xs (i - 1)) then
      sortedRun less xs b fuel (i + 1)
    else i

/-- The left-shift loop of Go `partialInsertionSort_func` (reached only on
ranges of at least 50 elements). -/
def shiftLeft [Inhabited α] (less : α → α → Bool) :
    Nat → Array α → Nat → Array α
  | 0, xs, _ => xs
  | fuel + 1, xs, j =>
    if j ≥ 1 then
      if less (getIdx xs j) (getIdx xs (j - 1)) then
        shiftLeft less fuel (swapIdx xs j (j - 1)) (j - 1)
      else xs
    else xs

/-- The right-shift loop of Go `partialInsertionSort_func` (reached only on
ranges of at least 50 elements). -/
def shiftRight [Inhabited α] (less : α → α → Bool) (b : Nat) :
    Nat → Array α → Nat → Array α
  | 0, xs, _ => xs
  | fuel + 1, xs, j =>
    if j < b then
      if less (getIdx xs j) (getIdx xs (j - 1)) then
        shiftRight less b fuel (swapIdx xs j (j - 1)) (j + 1)
      else xs
    else xs

/-- Go `partialInsertionSort_func(data, a, b)`: up to five adjacent
out-of-order pairs are repaired (with shifting only from 50 elements up);
returns whether the range ended sorted. -/
def partialInsertionSortGo [Inhabited α] (less : α → α → Bool) :
    Nat → Array α → Nat → Nat → Nat → Array α × Bool
  | 0, xs, _, _, _ => (xs, false)
  | steps + 1, xs, a, b, i =>
    let i := sortedRun less xs b (b + 1) i
    if i = b then (xs, true)
    else if b - a < 50 then (xs, false)
    else
      let xs := swapIdx xs i (i - 1)
      let xs := if i - a ≥ 2 then shiftLeft less i xs (i - 1) else xs
      let xs := if b - i ≥ 2 then shiftRight less b (b - i) xs (i + 1) else xs
      partialInsertionSortGo less steps xs a b i

/-- The stage of one `pdqsort_func` loop iteration between the early exits
and the partitioning: optional `breakPatterns` (with a `limit` decrement),
pivot choice, optional reversal on a decreasing hint, and the optional
`partialInsertionSort` attempt.  `done` is `true` when
`partialInsertionSort` reports the range sorted (the Go `return`). -/
structure PdqPrep (α : Type) where
  xs : Array α
  limit : Nat
  pivot : Nat
  done : Bool

/-- The pre-partition stage of one Go `pdqsort_func` loop iteration; see
`PdqPrep`. -/
def pdqPrep [Inhabited α] (less : α → α → Bool) (xs : Array α)
    (a b limit : Nat) (wasBalanced wasPartitioned : Bool) : PdqPrep α :=
  let broke :=
    if wasBalanced then (xs, limit) else (breakPatternsGo xs a b, limit - 1)
  let chosen := choosePivot less broke.1 a b
  let rev :=
    if chosen.2 = Hint.decreasing then
      (reverseRangeGo (b - a) broke.1 a (b - 1), (b - 1) - (chosen.1 - a),
       Hint.increasing)
    else (broke.1, chosen.1, chosen.2)
  let tried :=
    if wasBalanced ∧ wasPartitioned ∧ rev.2.2 = Hint.increasing then
      partialInsertionSortGo less 5 rev.1 a b (a + 1)
    else (rev.1, false)
  ⟨tried.1, broke.2, rev.2.1, tried.2⟩

/-- Go `pdqsort_func(data, a, b, limit)`: the main pattern-defeating
quicksort loop, fuel-recursive (each loop iteration and each recursive call
strictly shrinks the range, so fuel `size + 1` at the entry point suffices).
A recursive Go call starts with fresh `wasBalanced = wasPartitioned = true`;
the continuation of the Go loop carries the updated flags. -/
def pdqsortGo [Inhabited α] (less : α → α → Bool) :
    Nat → Array α → Nat → Nat → Nat → Bool → Bool → Array α
  | 0, xs, _, _, _, _, _ => xs
  | fuel + 1, xs, a, b, limit, wasBalanced, wasPartitioned =>
    let length := b - a
    if length ≤ 12 then insertionSortGo less xs a b
    else if limit = 0 then heapSortGo less xs a b
    else
      let prep := pdqPrep less xs a b limit wasBalanced wasPartitioned
      if prep.done then prep.xs
      else if 0 < a ∧ ¬ less (getIdx prep.xs (a - 1)) (getIdx prep.xs prep.pivot) then
        let pe := partitionEqualGo less prep.xs a b prep.pivot
        pdqsortGo less fuel pe.1 pe.2 b prep.limit wasBalanced wasPartitioned
      else
        let part := partitionGo less prep.xs a b prep.pivot
        let mid := part.2.1
        let alreadyPartitioned := part.2.2
        let balanced := decide (min (mid - a) (b - mid) ≥ length / 8)
        if mid - a < b - mid then
          let ys := pdqsortGo less fuel part.1 a mid prep.limit true true
          pdqsortGo less fuel ys (mid + 1) b prep.limit balanced alreadyPartitioned
        else
          let ys := pdqsortGo less fuel part.1 (mid + 1) b prep.limit true true
          pdqsortGo less fuel ys a mid prep.limit balanced alreadyPartitioned

/-- Go `sort.Slice(x, less)`: `pdqsort_func(data, 0, n, bits.Len(uint(n)))`. -/
def sortSlice [Inhabited α] (less : α → α → Bool) (xs : Array α) : Array α :=
  pdqsortGo less (xs.size + 1) xs 0 xs.size (bitsLen xs.size) true true

/-!
### The sort permutes its input

Every mutation in the model goes through `swapIdx`, so each routine's output
is a permutation of its input.  (Go's `sort.Slice` contract promises exactly
this plus sortedness; stability is *not* promised — see claim C3.)
-/

theorem perm_set_set [DecidableEq α] (l : List α) (i j : Nat) (a b : α)
    (hi : i < l.length) (hj : j < l.length)
    (ha : a = l.get ⟨j, hj⟩) (hb : b = l.get ⟨i, hi⟩) :
    ((l.set i a).set j b).Perm l := by
  rw [List.perm_iff_count]
  intro x
  have hj' : j < (l.set i a).length := by simpa using hj
  rw [List.count_set _ _ _ _ hj', List.count_set _ _ _ _ hi]
  rw [List.getElem_set hj']
  subst ha hb
  simp only [List.get_eq_getElem, beq_iff_eq]
  have hcnt : (if l.get ⟨i, hi⟩ = x then 1 else 0) ≤ l.count x := by
    simp only [List.get_eq_getElem]
    split_ifs with h
    · exact List.count_pos_iff.2 (h ▸ l.getElem_mem hi)
    · omega
  simp only [List.get_eq_getElem] at hcnt
  split_ifs <;> simp_all <;> omega

theorem swapIdx_perm [DecidableEq α] (xs : Array α) (i j : Nat) :
    (swapIdx xs i j).toList.Perm xs.toList := by
  unfold swapIdx
  split
  case isTrue h =>
    rw [Array.toList_swap]
    exact perm_set_set _ _ _ _ _ (by simpa using h.1) (by simpa using h.2)
      (by simp [Array.get_eq_getElem, List.get_eq_getElem])
      (by simp [Array.get_eq_getElem, List.get_eq_getElem])
  case isFalse => exact .refl _

theorem foldl_perm [DecidableEq α] (f : Array α → Nat → Array α)
    (hf : ∀ xs i, ((f xs i).toList).Perm xs.toList) :
    ∀ (is : List Nat) (xs : Array α), ((is.foldl f xs).toList).Perm xs.toList
  | [], _ => .refl _
  | i :: is, xs => (foldl_perm f hf is (f xs i)).trans (hf xs i)

theorem insertionInner_perm [DecidableEq α] [Inhabited α]
    (less : α → α → Bool) (a : Nat) :
    ∀ (xs : Array α) (j : Nat), ((insertionInner less a xs j).toList).Perm xs.toList
  | _, 0 => .refl _
  | xs, j + 1 => by
    rw [insertionInner]
    split
    · exact (insertionInner_perm less a _ j).trans (swapIdx_perm xs (j + 1) j)
    · exact .refl _

theorem insertionSortGo_perm [DecidableEq α] [Inhabited α]
    (less : α → α → Bool) (xs : Array α) (a b : Nat) :
    ((insertionSortGo less xs a b).toList).Perm xs.toList :=
  foldl_perm _ (fun ys i => insertionInner_perm less a ys i) _ xs

theorem siftDownGo_perm [DecidableEq α] [Inhabited α] (less : α → α → Bool) :
    ∀ (fuel : Nat) (xs : Array α) (root hi first : Nat),
      ((siftDownGo less fuel xs root hi first).toList).Perm xs.toList
  | 0, _, _, _, _ => .refl _
  | fuel + 1, xs, root, hi, first => by
    rw [siftDownGo]
    dsimp only
    split
    · exact .refl _
    · split
      · split
        · exact (siftDownGo_perm less fuel _ _ _ _).trans (swapIdx_perm _ _ _)
        · exact .refl _
      · split
        · exact (siftDownGo_perm less fuel _ _ _ _).trans (swapIdx_perm _ _ _)
        · exact .refl _

theorem heapSortGo_perm [DecidableEq α] [Inhabited α] (less : α → α → Bool)
    (xs : Array α) (a b : Nat) :
    ((heapSortGo less xs a b).toList).Perm xs.toList := by
  unfold heapSortGo
  try dsimp only
  refine (foldl_perm _ (fun ys i => ?_) _ _).trans (foldl_perm _ (fun ys i => ?_) _ xs)
  · exact (siftDownGo_perm less _ _ 0 i a).trans (swapIdx_perm ys a (a + i))
  · exact siftDownGo_perm less _ ys i (b - a) a

theorem reverseRangeGo_perm [DecidableEq α] :
    ∀ (fuel : Nat) (xs : Array α) (i j : Nat),
      ((reverseRangeGo fuel xs i j).toList).Perm xs.toList
  | 0, _, _, _ => .refl _
  | fuel + 1, xs, i, j => by
    rw [reverseRangeGo]
    split
    · exact (reverseRangeGo_perm fuel _ _ _).trans (swapIdx_perm xs i j)
    · exact .refl _

theorem breakPatternsGo_perm [DecidableEq α] (xs : Array α) (a b : Nat) :
    ((breakPatternsGo xs a b).toList).Perm xs.toList := by
  unfold breakPatternsGo
  try dsimp only
  split
  · exact (swapIdx_perm _ _ _).trans ((swapIdx_perm _ _ _).trans (swapIdx_perm _ _ _))
  · exact .refl _

theorem partitionLoop_perm [DecidableEq α] [Inhabited α]
    (less : α → α → Bool) (a : Nat) :
    ∀ (fuel : Nat) (xs : Array α) (i j : Nat),
      ((partitionLoop less a fuel xs i j).1.toList).Perm xs.toList
  | 0, xs, _, j => swapIdx_perm xs j a
  | fuel + 1, xs, i, j => by
    rw [partitionLoop]
    try dsimp only
    split
    · exact swapIdx_perm _ _ _
    · exact (partitionLoop_perm less a fuel _ _ _).trans (swapIdx_perm _ _ _)

theorem partitionGo_perm [DecidableEq α] [Inhabited α] (less : α → α → Bool)
    (xs : Array α) (a b pivot : Nat) :
    ((partitionGo less xs a b pivot).1.toList).Perm xs.toList := by
  unfold partitionGo
  try dsimp only
  split
  · exact (swapIdx_perm _ _ _).trans (swapIdx_perm _ _ _)
  · exact ((partitionLoop_perm less a _ _ _ _).trans (swapIdx_perm _ _ _)).trans
      (swapIdx_perm _ _ _)

theorem partitionEqualLoop_perm [DecidableEq α] [Inhabited α]
    (less : α → α → Bool) (a : Nat) :
    ∀ (fuel : Nat) (xs : Array α) (i j : Nat),
      ((partitionEqualLoop less a fuel xs i j).1.toList).Perm xs.toList
  | 0, _, _, _ => .refl _
  | fuel + 1, xs, i, j => by
    rw [partitionEqualLoop]
    try dsimp only
    split
    · exact .refl _
    · exact (partitionEqualLoop_perm less a fuel _ _ _).trans (swapIdx_perm _ _ _)

theorem partitionEqualGo_perm [DecidableEq α] [Inhabited α]
    (less : α → α → Bool) (xs : Array α) (a b pivot : Nat) :
    ((partitionEqualGo less xs a b pivot).1.toList).Perm xs.toList :=
  (partitionEqualLoop_perm less a _ _ _ _).trans (swapIdx_perm _ _ _)

theorem shiftLeft_perm [DecidableEq α] [Inhabited α] (less : α → α → Bool) :
    ∀ (fuel : Nat) (xs : Array α) (j : Nat),
      ((shiftLeft less fuel xs j).toList).Perm xs.toList
  | 0, _, _ => .refl _
  | fuel + 1, xs, j => by
    rw [shiftLeft]
    split
    · split
      · exact (shiftLeft_perm less fuel _ _).trans (swapIdx_perm _ _ _)
      · exact .refl _
    · exact .refl _

theorem shiftRight_perm [DecidableEq α] [Inhabited α] (less : α → α → Bool)
    (b : Nat) :
    ∀ (fuel : Nat) (xs : Array α) (j : Nat),
      ((shiftRight less b fuel xs j).toList).Perm xs.toList
  | 0, _, _ => .refl _
  | fuel + 1, xs, j => by
    rw [shiftRight]
    split
    · split
      · exact (shiftRight_perm less b fuel _ _).trans (swapIdx_perm _ _ _)
      · exact .refl _
    · exact .refl _

theorem partialInsertionSortGo_perm [DecidableEq α] [Inhabited α]
    (less : α → α → Bool) :
    ∀ (steps : Nat) (xs : Array α) (a b i : Nat),
      ((partialInsertionSortGo less steps xs a b i).1.toList).Perm xs.toList
  | 0, _, _, _, _ => .refl _
  | steps + 1, xs, a, b, i => by
    rw [partialInsertionSortGo]
    dsimp only
    generalize sortedRun less xs b (b + 1) i = I
    split
    · exact .refl _
    · split
      · exact .refl _
      · refine (partialInsertionSortGo_perm less steps _ a b _).trans ?_
        refine List.Perm.trans ?_ (swapIdx_perm xs I (I - 1))
        split
        · refine List.Perm.trans (shiftRight_perm less b _ _ _) ?_
          split
          · exact shiftLeft_perm less _ _ _
          · exact .refl _
        · split
          · exact shiftLeft_perm less _ _ _
          · exact .refl _

theorem pdqPrep_perm [DecidableEq α] [Inhabited α] (less : α → α → Bool)
    (xs : Array α) (a b limit : Nat) (wb wp : Bool) :
    ((pdqPrep less xs a b limit wb wp).xs.toList).Perm xs.toList := by
  unfold pdqPrep
  dsimp only
  repeat' split
  all_goals
    first
      | exact .refl _
      | exact partialInsertionSortGo_perm less 5 _ a b (a + 1)
      | exact breakPatternsGo_perm xs a b
      | exact reverseRangeGo_perm _ _ _ _
      | exact (partialInsertionSortGo_perm less 5 _ a b (a + 1)).trans
          (reverseRangeGo_perm _ _ _ _)
      | exact (reverseRangeGo_perm _ _ _ _).trans (breakPatternsGo_perm xs a b)
      | exact (partialInsertionSortGo_perm less 5 _ a b (a + 1)).trans
          (breakPatternsGo_perm xs a b)
      | exact ((partialInsertionSortGo_perm less 5 _ a b (a + 1)).trans
          (reverseRangeGo_perm _ _ _ _)).trans (breakPatternsGo_perm xs a b)

theorem pdqsortGo_perm [DecidableEq α] [Inhabited α] (less : α → α → Bool) :
    ∀ (fuel : Nat) (xs : Array α) (a b limit : Nat) (wb wp : Bool),
      ((pdqsortGo less fuel xs a b limit wb wp).toList).Perm xs.toList
  | 0, _, _, _, _, _, _ => .refl _
  | fuel + 1, xs, a, b, limit, wb, wp => by
    rw [pdqsortGo]
    dsimp only
    split
    · exact insertionSortGo_perm less xs a b
    · split
      · exact heapSortGo_perm less xs a b
      · split
        · exact pdqPrep_perm less xs a b limit wb wp
        · split
          · exact ((pdqsortGo_perm less fuel _ _ _ _ _ _).trans
              (partitionEqualGo_perm less _ _ _ _)).trans
              (pdqPrep_perm less xs a b limit wb wp)
          · split
            · exact (((pdqsortGo_perm less fuel _ _ _ _ _ _).trans
                (pdqsortGo_perm less fuel _ _ _ _ _ _)).trans
                (partitionGo_perm less _ _ _ _)).trans
                (pdqPrep_perm less xs a b limit wb wp)
            · exact (((pdqsortGo_perm less fuel _ _ _ _ _ _).trans
                (pdqsortGo_perm less fuel _ _ _ _ _ _)).trans
                (partitionGo_perm less _ _ _ _)).trans
                (pdqPrep_perm less xs a b limit wb wp)

theorem sortSlice_perm [DecidableEq α] [Inhabited α] (less : α → α → Bool)
    (xs : Array α) : ((sortSlice less xs).toList).Perm xs.toList :=
  pdqsortGo_perm less _ xs _ _ _ _ _

end GoSort

namespace Clob

/-!
## The matcher (`cmd/matcher/matcher.go`)
-/

/-- The comparison closure of `sortOrders` (`matcher.go`): descending price,
ties by ascending timestamp. -/
def ordLess (x y : Order) : Bool :=
  if x.price ≠ y.price then decide (y.price < x.price)
  else decide (x.timestamp < y.timestamp)

/-- Go `sortOrders` (`matcher.go`): `sort.Slice` with `ordLess`.  The Go
function sorts its slice in place; every caller passes a fresh copy, so it is
modelled as a function. -/
def sortOrders (orders : List Order) : List Order :=
  (GoSort.sortSlice ordLess orders.toArray).toList

/-- The comparison closure of `splitBidsAsks` (`matcher.go`): descending
price only. -/
def priceLess (x y : Order) : Bool := decide (y.price < x.price)

/-- Go `splitBidsAsks` (`matcher.go`): sort a copy by descending price and
split at the ceiling-median index; the upper half are bids, the lower half
asks. -/
def splitBidsAsks (orders : List Order) : List Order × List Order :=
  if orders.length = 0 then ([], [])
  else
    let sorted := (GoSort.sortSlice priceLess orders.toArray).toList
    let midpoint := orders.length / 2 + (if orders.length % 2 = 1 then 1 else 0)
    (sorted.take midpoint, sorted.drop midpoint)

/-- The mutable state of the multi-fill matching loop in `MatchAndBatch`
(`matcher.go`): the working copies of the bid and ask slices, the two
cursors, and the fills emitted so far. -/
structure LoopState where
  bids : List Order
  asks : List Order
  i : Nat
  j : Nat
  fills : List Fill
deriving DecidableEq

/-- One iteration of the multi-fill matching loop of `MatchAndBatch`
(`matcher.go`): `none` means the loop terminates (guard false, or the bid no
longer crosses the ask); `some s` is the state after the iteration.  The
three live branches are: bid `MakeAmount` unparseable (skip the bid), ask
`TakeAmount` unparseable (skip the ask), and a fill — emit
`Fill{orderHash(bid), orderHash(ask), formatAmount(q)}` with
`q = min(bidMakeAmount, askTakeAmount)`, write the formatted residuals back
into the working slices, and advance each cursor whose residual is `≤ ε`. -/
def matchStep (oh : Order → String) (maxBatch : ℤ) (s : LoopState) :
    Option LoopState :=
  if h : (s.fills.length : ℤ) < maxBatch ∧ s.i < s.bids.length ∧ s.j < s.asks.length then
    if (s.bids.get ⟨s.i, h.2.1⟩).price < (s.asks.get ⟨s.j, h.2.2⟩).price then none
    else
      match parseAmount (s.bids.get ⟨s.i, h.2.1⟩).makeAmount with
      | none => some ⟨s.bids, s.asks, s.i + 1, s.j, s.fills⟩
      | some bm =>
        match parseAmount (s.asks.get ⟨s.j, h.2.2⟩).takeAmount with
        | none => some ⟨s.bids, s.asks, s.i, s.j + 1, s.fills⟩
        | some am =>
          some ⟨s.bids.set s.i
                  { s.bids.get ⟨s.i, h.2.1⟩ with makeAmount := formatAmount (bm - min bm am) },
                s.asks.set s.j
                  { s.asks.get ⟨s.j, h.2.2⟩ with takeAmount := formatAmount (am - min bm am) },
                (if bm - min bm am ≤ eps then s.i + 1 else s.i),
                (if am - min bm am ≤ eps then s.j + 1 else s.j),
                s.fills ++ [⟨oh (s.bids.get ⟨s.i, h.2.1⟩), oh (s.asks.get ⟨s.j, h.2.2⟩),
                             round8 (min bm am)⟩]⟩
  else none

/-- The multi-fill matching loop of `MatchAndBatch` (`matcher.go`, the
`for len(fills) < maxBatch && i < len(workingBids) && j < len(workingAsks)`
loop): iterate `matchStep`.  Fuel recursion: every iteration either emits a
fill or advances a cursor, so fuel `maxBatch.toNat + |bids| + |asks| + 1`
dominates the iteration count. -/
def matchLoopF (oh : Order → String) (maxBatch : ℤ) :
    Nat → LoopState → LoopState
  | 0, s => s
  | fuel + 1, s =>
    match matchStep oh maxBatch s with
    | none => s
    | some next => matchLoopF oh maxBatch fuel next

/-- The survival test `MatchAndBatch` applies to an unmatched bid: its
`MakeAmount` parses and exceeds ε. -/
def keepBid (o : Order) : Bool :=
  match parseAmount o.makeAmount with
  | some amount => decide (eps < amount)
  | none => false

/-- The survival test `MatchAndBatch` applies to an unmatched ask: its
`TakeAmount` parses and exceeds ε. -/
def keepAsk (o : Order) : Bool :=
  match parseAmount o.takeAmount with
  | some amount => decide (eps < amount)
  | none => false

/-- Step 5 of `MatchAndBatch` (`matcher.go`): collect the surviving bids from
`i` on and the surviving asks from `j` on, then the two conditional re-appends
of the entries at `i-1` and `j-1` ("add partially filled orders if they have
remaining amounts"). -/
def buildRemaining (s : LoopState) : List Order :=
  let fromBids := (s.bids.drop s.i).filter keepBid
  let fromAsks := (s.asks.drop s.j).filter keepAsk
  let extraBid :=
    if 0 < s.i ∧ s.i ≤ s.bids.length then
      match s.bids[s.i - 1]? with
      | some bid => if keepBid bid then [bid] else []
      | none => []
    else []
  let extraAsk :=
    if 0 < s.j ∧ s.j ≤ s.asks.length then
      match s.asks[s.j - 1]? with
      | some ask => if keepAsk ask then [ask] else []
      | none => []
    else []
  fromBids ++ fromAsks ++ extraBid ++ extraAsk

/-!
## The Merkle builder (`computeMerkleRoot` over `github.com/cbergoon/merkletree`)
-/

/-- The hash functions the matcher uses, as abstract parameters: `orderHash`
is SHA-256 over the colon-joined order fields (with the price formatted
`%.8f`), `leafHash` is SHA-256 over `"{makerHash}:{takerHash}:{quantity}"`
(the `Fill.CalculateHash` method), and `sha` is plain SHA-256 over bytes
(the internal nodes).  Every theorem below holds for all instantiations. -/
structure HashEnv where
  orderHash : Order → String
  leafHash : Fill → List Nat
  sha : List Nat → List Nat

/-- One pass of `buildIntermediate` in `cbergoon/merkletree`: hash adjacent
pairs; with an odd node left at the end, pair it with itself (the
`if i+1 == len(nl) { right = i }` branch). -/
def levelPass (sha : List Nat → List Nat) : List (List Nat) → List (List Nat)
  | [] => []
  | [x] => [sha (x ++ x)]
  | x :: y :: rest => sha (x ++ y) :: levelPass sha rest

/-- The recursion of `buildIntermediate` in `cbergoon/merkletree`: a level of
exactly two nodes returns their parent (the `if len(nl) == 2` early return);
otherwise reduce one level and recurse.  Fuel-recursive; a level never grows,
so fuel `length + 1` suffices (the function is only ever applied to levels of
at least two nodes). -/
def buildIntermediate (sha : List Nat → List Nat) :
    Nat → List (List Nat) → List Nat
  | 0, l => l.headD []
  | fuel + 1, l =>
    match l with
    | [x, y] => sha (x ++ y)
    | l => buildIntermediate sha fuel (levelPass sha l)

/-- Go `computeMerkleRoot` (`matcher.go`): an error exactly on an empty fill
slice, otherwise the root of the `cbergoon/merkletree` tree over the fills —
leaves are the fill hashes, and a leaf level of odd length is padded by
duplicating its last node (`buildWithContent`) before `buildIntermediate`
reduces it. -/
def computeMerkleRoot (env : HashEnv) (fills : List Fill) :
    Except String (List Nat) :=
  match fills with
  | [] => .error "cannot compute merkle root for empty fills"
  | _ =>
    let leafs := fills.map env.leafHash
    let padded :=
      if leafs.length % 2 = 1 then leafs ++ [(leafs.getLast?).getD []] else leafs
    .ok (buildIntermediate env.sha (padded.length + 1) padded)

/-- Pairwise hashing of an even-length level (the spec's "reducing pair-wise
levels"); the odd case never arises after padding. -/
def levelPassEven (sha : List Nat → List Nat) : List (List Nat) → List (List Nat)
  | [] => []
  | [_] => []
  | x :: y :: rest => sha (x ++ y) :: levelPassEven sha rest

/-- The Merkle level reduction as §4.3 of the specification words it:
duplicate the last node of a level with an odd number of nodes, then hash the
level pairwise with `sha(left ‖ right)`. -/
def specMerkleLevel (sha : List Nat → List Nat) (l : List (List Nat)) :
    List (List Nat) :=
  let padded := if l.length % 2 = 1 then l ++ [(l.getLast?).getD []] else l
  levelPassEven sha padded

/-- The spec's level reduction, iterated down to a single node
(fuel-recursive, fuel `length + 1`). -/
def specMerkleRootF (sha : List Nat → List Nat) :
    Nat → List (List Nat) → List Nat
  | 0, l => l.headD []
  | fuel + 1, l =>
    let l := specMerkleLevel sha l
    if l.length = 1 then l.headD [] else specMerkleRootF sha fuel l

/-- The Merkle digest §4.3 of the specification describes for a non-empty
fill sequence. -/
def specMerkleRoot (env : HashEnv) (fills : List Fill) : List Nat :=
  specMerkleRootF env.sha (fills.length + 1) (fills.map env.leafHash)

/-!
## `MatchAndBatch` (`cmd/matcher/matcher.go`)
-/

/-- The result quadruple of Go
`MatchAndBatch(orders, maxBatch) (string, []byte, []Order, error)`.  `root =
none` models the empty string `""`, `fills = none` models the `nil` byte
slice (`json.Marshal` of the fill slice is injective, so the serialized
payload is modelled by the fill list itself), and `err = none` models a `nil`
error. -/
structure MatchOut where
  root : Option (List Nat)
  fills : Option (List Fill)
  remaining : List Order
  err : Option String
deriving DecidableEq

/-- The matching pipeline of Go `MatchAndBatch` (`matcher.go`): sort a copy
by (descending price, ascending timestamp), split into bids and asks at the
ceiling median, and run the multi-fill loop from cursors `(0, 0)`. -/
def matcherRun (env : HashEnv) (orders : List Order) (maxBatch : ℤ) : LoopState :=
  let split := splitBidsAsks (sortOrders orders)
  matchLoopF env.orderHash maxBatch
    (maxBatch.toNat + split.1.length + split.2.length + 1)
    ⟨split.1, split.2, 0, 0, []⟩

/-- Go `MatchAndBatch(orders, maxBatch)` continued: guard on fewer than two
orders; run the matching pipeline; on zero fills return the *original*
orders; otherwise compute the Merkle root over the fills and serialize
them. -/
def MatchAndBatch (env : HashEnv) (orders : List Order) (maxBatch : ℤ) :
    MatchOut :=
  if orders.length < 2 then ⟨none, none, orders, none⟩
  else
    let final := matcherRun env orders maxBatch
    let remaining := buildRemaining final
    if final.fills = [] then ⟨none, none, orders, none⟩
    else
      match computeMerkleRoot env final.fills with
      | .error e => ⟨none, none, remaining, some ("failed to compute merkle root: " ++ e)⟩
      | .ok root => ⟨some root, some final.fills, remaining, none⟩

/-!
## Arithmetic facts about the eight-digit quantisation
-/

theorem roundHalfEven_of_intCast (n : ℤ) : roundHalfEven (n : ℚ) = n := by
  unfold roundHalfEven
  rw [Int.floor_intCast]
  norm_num

theorem roundHalfEven_nonneg {x : ℚ} (h : 0 ≤ x) : 0 ≤ roundHalfEven x := by
  have hf : (0 : ℤ) ≤ ⌊x⌋ := Int.le_floor.2 (by exact_mod_cast h)
  unfold roundHalfEven
  split_ifs <;> omega

theorem roundHalfEven_le_one {x : ℚ} (h0 : 0 ≤ x) (h1 : x ≤ 1) :
    roundHalfEven x ≤ 1 := by
  have hf0 : (0 : ℤ) ≤ ⌊x⌋ := Int.le_floor.2 (by exact_mod_cast h0)
  have hf1 : ⌊x⌋ ≤ ⌊(1 : ℚ)⌋ := Int.floor_le_floor h1
  rw [show ⌊(1 : ℚ)⌋ = 1 by norm_num] at hf1
  have hc : ⌊x⌋ = 0 ∨ ⌊x⌋ = 1 := by omega
  unfold roundHalfEven
  rcases hc with hc | hc
  · rw [hc]
    split_ifs <;> omega
  · have hx1 : x = 1 := by
      have := Int.floor_le x
      rw [hc] at this
      exact le_antisymm h1 (by exact_mod_cast this)
    rw [hc, hx1]
    norm_num

theorem round8_nonneg {x : ℚ} (h : 0 ≤ x) : 0 ≤ round8 x := by
  unfold round8
  have : (0 : ℤ) ≤ roundHalfEven (x * 100000000) :=
    roundHalfEven_nonneg (by positivity)
  positivity

theorem round8_le_eps {x : ℚ} (h0 : 0 ≤ x) (h1 : x ≤ eps) : round8 x ≤ eps := by
  have hy0 : 0 ≤ x * 100000000 := by positivity
  have hy1 : x * 100000000 ≤ 1 := by
    rw [eps] at h1
    nlinarith
  have hr : ((roundHalfEven (x * 100000000) : ℤ) : ℚ) ≤ 1 := by
    exact_mod_cast roundHalfEven_le_one hy0 hy1
  unfold round8 eps
  linarith

/-- The residual survival test fails on a formatted residual of at most ε:
the formatted string either fails `parseAmount` (value `≤ 0` after rounding)
or parses to a value not exceeding ε. -/
theorem keepBid_formatAmount_false (o : Order) {x : ℚ} (h0 : 0 ≤ x)
    (h1 : x ≤ eps) :
    keepBid { o with makeAmount := formatAmount x } = false := by
  unfold keepBid formatAmount parseAmount
  by_cases hz : round8 x ≤ 0
  · simp [hz]
  · simp only [if_neg hz]
    simp [round8_le_eps h0 h1]

theorem keepAsk_formatAmount_false (o : Order) {x : ℚ} (h0 : 0 ≤ x)
    (h1 : x ≤ eps) :
    keepAsk { o with takeAmount := formatAmount x } = false := by
  unfold keepAsk formatAmount parseAmount
  by_cases hz : round8 x ≤ 0
  · simp [hz]
  · simp only [if_neg hz]
    simp [round8_le_eps h0 h1]

/-!
## The pruning invariant of the matching loop (claims C1, C10)
-/

/-- Invariant of the matching loop: every bid strictly before cursor `i` and
every ask strictly before cursor `j` fails its survival test, and the cursors
never pass the end of their slices. -/
def PrunedPrefix (s : LoopState) : Prop :=
  (∀ k, k < s.i → ∀ o, s.bids[k]? = some o → keepBid o = false) ∧
  (∀ k, k < s.j → ∀ o, s.asks[k]? = some o → keepAsk o = false) ∧
  s.i ≤ s.bids.length ∧ s.j ≤ s.asks.length

theorem matchStep_pruned {oh : Order → String} {mb : ℤ} {s next : LoopState}
    (hs : PrunedPrefix s) (hstep : matchStep oh mb s = some next) :
    PrunedPrefix next := by
  unfold matchStep at hstep
  split at hstep
  case isFalse => exact absurd hstep (by simp)
  case isTrue h =>
    split at hstep
    case isTrue => exact absurd hstep (by simp)
    case isFalse hcross =>
      rcases hpb : parseAmount (s.bids.get ⟨s.i, h.2.1⟩).makeAmount with _ | bm
      · rw [hpb] at hstep
        simp only [Option.some.injEq] at hstep
        subst hstep
        refine ⟨?_, hs.2.1, h.2.1, hs.2.2.2⟩
        intro k hk o ho
        simp only at hk ho ⊢
        rcases Nat.lt_or_ge k s.i with hk' | hk'
        · exact hs.1 k hk' o ho
        · have hk'' : k = s.i := by omega
          subst hk''
          have ho' : o = s.bids.get ⟨s.i, h.2.1⟩ := by
            rw [List.getElem?_eq_getElem h.2.1] at ho
            simp only [Option.some.injEq] at ho
            rw [← ho, List.get_eq_getElem]
          subst ho'
          unfold keepBid
          rw [hpb]
      · rw [hpb] at hstep
        rcases hpa : parseAmount (s.asks.get ⟨s.j, h.2.2⟩).takeAmount with _ | am
        · rw [hpa] at hstep
          simp only [Option.some.injEq] at hstep
          subst hstep
          refine ⟨hs.1, ?_, hs.2.2.1, h.2.2⟩
          intro k hk o ho
          simp only at hk ho ⊢
          rcases Nat.lt_or_ge k s.j with hk' | hk'
          · exact hs.2.1 k hk' o ho
          · have hk'' : k = s.j := by omega
            subst hk''
            have ho' : o = s.asks.get ⟨s.j, h.2.2⟩ := by
              rw [List.getElem?_eq_getElem h.2.2] at ho
              simp only [Option.some.injEq] at ho
              rw [← ho, List.get_eq_getElem]
            subst ho'
            unfold keepAsk
            rw [hpa]
        · rw [hpa] at hstep
          simp only [Option.some.injEq] at hstep
          subst hstep
          have hres0b : 0 ≤ bm - min bm am := by
            have := min_le_left bm am
            linarith
          have hres0a : 0 ≤ am - min bm am := by
            have := min_le_right bm am
            linarith
          refine ⟨?_, ?_, ?_, ?_⟩
          · intro k hk o ho
            simp only at hk ho ⊢
            by_cases hadv : bm - min bm am ≤ eps
            · rw [if_pos hadv] at hk
              rcases Nat.lt_or_ge k s.i with hk' | hk'
              · have hne : s.i ≠ k := by omega
                rw [List.getElem?_set_ne hne] at ho
                exact hs.1 k hk' o ho
              · have hk'' : k = s.i := by omega
                subst hk''
                rw [List.getElem?_set_self h.2.1] at ho
                simp only [Option.some.injEq] at ho
                rw [← ho]
                exact keepBid_formatAmount_false _ hres0b hadv
            · rw [if_neg hadv] at hk
              have hne : s.i ≠ k := by omega
              rw [List.getElem?_set_ne hne] at ho
              exact hs.1 k hk o ho
          · intro k hk o ho
            simp only at hk ho ⊢
            by_cases hadv : am - min bm am ≤ eps
            · rw [if_pos hadv] at hk
              rcases Nat.lt_or_ge k s.j with hk' | hk'
              · have hne : s.j ≠ k := by omega
                rw [List.getElem?_set_ne hne] at ho
                exact hs.2.1 k hk' o ho
              · have hk'' : k = s.j := by omega
                subst hk''
                rw [List.getElem?_set_self h.2.2] at ho
                simp only [Option.some.injEq] at ho
                rw [← ho]
                exact keepAsk_formatAmount_false _ hres0a hadv
            · rw [if_neg hadv] at hk
              have hne : s.j ≠ k := by omega
              rw [List.getElem?_set_ne hne] at ho
              exact hs.2.1 k hk o ho
          · simp only [List.length_set]
            split_ifs <;> omega
          · simp only [List.length_set]
            split_ifs <;> omega

theorem matchLoopF_pruned (oh : Order → String) (mb : ℤ) :
    ∀ (fuel : Nat) (s : LoopState), PrunedPrefix s →
      PrunedPrefix (matchLoopF oh mb fuel s)
  | 0, _, hs => hs
  | fuel + 1, s, hs => by
    rw [matchLoopF]
    rcases hstep : matchStep oh mb s with _ | next
    · exact hs
    · exact matchLoopF_pruned oh mb fuel next (matchStep_pruned hs hstep)

theorem matchLoopF_eq_of_step_none {oh : Order → String} {mb : ℤ}
    {s : LoopState} (hstep : matchStep oh mb s = none) :
    ∀ fuel, matchLoopF oh mb fuel s = s
  | 0 => rfl
  | _ + 1 => by rw [matchLoopF, hstep]

theorem sortOrders_perm (orders : List Order) :
    (sortOrders orders).Perm orders := by
  unfold sortOrders
  simpa using GoSort.sortSlice_perm ordLess orders.toArray

theorem splitBidsAsks_perm (orders : List Order) :
    ((splitBidsAsks orders).1 ++ (splitBidsAsks orders).2).Perm orders := by
  unfold splitBidsAsks
  split
  case isTrue h =>
    simp only [List.length_eq_zero] at h
    simp [h]
  case isFalse h =>
    rw [List.take_append_drop]
    simpa using GoSort.sortSlice_perm priceLess orders.toArray

/-- With fewer than two orders the loop matches nothing: the ask slice is
empty, so the guard fails at once. -/
theorem matcherRun_of_lt_two (env : HashEnv) (orders : List Order)
    (mb : ℤ) (h : orders.length < 2) :
    matcherRun env orders mb =
      ⟨(splitBidsAsks (sortOrders orders)).1, (splitBidsAsks (sortOrders orders)).2, 0, 0, []⟩ := by
  have hsortlen : (sortOrders orders).length = orders.length :=
    (sortOrders_perm orders).length_eq
  have hasks : (splitBidsAsks (sortOrders orders)).2.length = 0 := by
    unfold splitBidsAsks
    split
    case isTrue => simp
    case isFalse h2 =>
      have hlen : (GoSort.sortSlice priceLess (sortOrders orders).toArray).toList.length
          = (sortOrders orders).length := by
        simpa using (GoSort.sortSlice_perm priceLess (sortOrders orders).toArray).length_eq
      simp only [List.length_drop, hlen, hsortlen]
      have h1 : orders.length = 1 := by
        rw [hsortlen] at h2
        omega
      rw [h1]
      rfl
  unfold matcherRun
  refine matchLoopF_eq_of_step_none ?_ _
  unfold matchStep
  rw [dif_neg]
  intro hc
  have h3 := hc.2.2
  dsimp only at h3
  rw [hasks] at h3
  exact absurd h3 (Nat.lt_irrefl 0)

theorem buildRemaining_eq_of_pruned {s : LoopState} (h : PrunedPrefix s) :
    buildRemaining s =
      (s.bids.drop s.i).filter keepBid ++ (s.asks.drop s.j).filter keepAsk := by
  unfold buildRemaining
  dsimp only
  have hb : (if 0 < s.i ∧ s.i ≤ s.bids.length then
      match s.bids[s.i - 1]? with
      | some bid => if keepBid bid then [bid] else []
      | none => []
    else []) = ([] : List Order) := by
    split
    case isTrue hc =>
      rcases ho : s.bids[s.i - 1]? with _ | bid
      · rfl
      · have : keepBid bid = false := h.1 (s.i - 1) (by omega) bid ho
        simp [this]
    case isFalse => rfl
  have ha : (if 0 < s.j ∧ s.j ≤ s.asks.length then
      match s.asks[s.j - 1]? with
      | some ask => if keepAsk ask then [ask] else []
      | none => []
    else []) = ([] : List Order) := by
    split
    case isTrue hc =>
      rcases ho : s.asks[s.j - 1]? with _ | ask
      · rfl
      · have : keepAsk ask = false := h.2.1 (s.j - 1) (by omega) ask ho
        simp [this]
    case isFalse => rfl
  rw [hb, ha]
  simp

/-- The pruning invariant holds of the run on any order list: the loop starts
at cursors `(0, 0)`. -/
theorem matcherRun_pruned (env : HashEnv) (orders : List Order) (mb : ℤ) :
    PrunedPrefix (matcherRun env orders mb) := by
  unfold matcherRun
  exact matchLoopF_pruned _ _ _ _
    ⟨fun k hk => absurd hk (Nat.not_lt_zero k),
     fun k hk => absurd hk (Nat.not_lt_zero k),
     Nat.zero_le _, Nat.zero_le _⟩

/-- C1: when a `MatchAndBatch` run emits at least one fill, the returned
remaining sequence is exactly the bids from the final cursor `i` onward that
pass the ε-survival test, followed by the asks from the final cursor `j`
onward that pass it; the two conditional re-append code paths (indices `i-1`
and `j-1`) contribute nothing, no order appears twice, and every surviving
order passes its side's survival test (`make_amount > ε` for bids,
`take_amount > ε` for asks). -/
theorem remaining_eq_filtered_suffixes (env : HashEnv) (orders : List Order)
    (maxBatch : ℤ) (hfills : (matcherRun env orders maxBatch).fills ≠ []) :
    (MatchAndBatch env orders maxBatch).remaining =
      ((matcherRun env orders maxBatch).bids.drop (matcherRun env orders maxBatch).i).filter keepBid
        ++ ((matcherRun env orders maxBatch).asks.drop (matcherRun env orders maxBatch).j).filter keepAsk
    ∧ ∀ o ∈ (MatchAndBatch env orders maxBatch).remaining,
        keepBid o = true ∨ keepAsk o = true := by
  have hpr := matcherRun_pruned env orders maxBatch
  have hrem := buildRemaining_eq_of_pruned hpr
  have hmb : (MatchAndBatch env orders maxBatch).remaining
      = buildRemaining (matcherRun env orders maxBatch) := by
    unfold MatchAndBatch
    split
    case isTrue h2 =>
      rw [matcherRun_of_lt_two env orders maxBatch h2] at hfills
      exact absurd rfl hfills
    case isFalse h2 =>
      dsimp only
      rw [if_neg hfills]
      rcases computeMerkleRoot env (matcherRun env orders maxBatch).fills with e | r
      · rfl
      · rfl
  refine ⟨hmb.trans hrem, ?_⟩
  intro o ho
  rw [hmb, hrem] at ho
  rcases List.mem_append.1 ho with hm | hm
  · exact Or.inl (List.mem_filter.1 hm).2
  · exact Or.inr (List.mem_filter.1 hm).2

/- Witness for C1: a two-order book (one bid at 0.6 offering 1000, one ask
at 0.5 demanding 600) produces one fill, and the remaining list is the
filtered suffix pair — here the single partially-filled ask. -/
def w1bid : Order := ⟨"0xa1", "T", .num 1000, .num 600, 3 / 5, 1, "s1"⟩

def w1ask : Order := ⟨"0xa2", "T", .num 300, .num 500, 1 / 2, 2, "s2"⟩

/-- A concrete hash environment for witnesses: hashes that merely encode
their input so that evaluation is possible. -/
def wEnv : HashEnv :=
  ⟨fun o => o.maker, fun f => [f.makerHash.length, f.takerHash.length],
   fun l => l.length :: l⟩

/-- C10: for every orders sequence and every `maxBatch ≤ 0`, `MatchAndBatch`
returns an empty root, nil fills, the original orders unchanged, and no
error. -/
theorem matchAndBatch_nonpositive_maxBatch (env : HashEnv)
    (orders : List Order) (maxBatch : ℤ) (h : maxBatch ≤ 0) :
    MatchAndBatch env orders maxBatch = ⟨none, none, orders, none⟩ := by
  unfold MatchAndBatch
  split
  case isTrue => rfl
  case isFalse h2 =>
    have hrun : (matcherRun env orders maxBatch).fills = [] := by
      unfold matcherRun
      rw [matchLoopF_eq_of_step_none]
      · unfold matchStep
        rw [dif_neg]
        intro hc
        have := hc.1
        simp only [List.length_nil, Nat.cast_zero] at this
        omega
    dsimp only
    rw [if_pos hrun]

/-!
## Quantised amounts (claim C2)

Amounts that are integer multiples of ε = 1e-8 — "pre-quantized upstream" in
the words of §9 of the specification — are exactly the values on which the
eight-digit re-formatting `formatAmount` is lossless.
-/

/-- An amount is ε-quantised when it is an integer multiple of 1e-8. -/
def Quant8 (q : ℚ) : Prop := ∃ n : ℤ, q = (n : ℚ) / 100000000

theorem quant8_iff_den (q : ℚ) : Quant8 q ↔ (q * 100000000).den = 1 := by
  constructor
  · rintro ⟨n, rfl⟩
    have : (n : ℚ) / 100000000 * 100000000 = (n : ℚ) := by
      field_simp
    rw [this]
    exact Rat.den_intCast n
  · intro h
    refine ⟨(q * 100000000).num, ?_⟩
    have := Rat.den_eq_one_iff (q * 100000000) |>.1 h
    rw [this]
    field_simp

instance : DecidablePred Quant8 := fun q =>
  decidable_of_iff ((q * 100000000).den = 1) (quant8_iff_den q).symm

theorem Quant8.zero : Quant8 0 := ⟨0, by norm_num⟩

theorem Quant8.add {a b : ℚ} (ha : Quant8 a) (hb : Quant8 b) : Quant8 (a + b) := by
  rcases ha with ⟨n, rfl⟩
  rcases hb with ⟨m, rfl⟩
  exact ⟨n + m, by push_cast; ring⟩

theorem Quant8.sub {a b : ℚ} (ha : Quant8 a) (hb : Quant8 b) : Quant8 (a - b) := by
  rcases ha with ⟨n, rfl⟩
  rcases hb with ⟨m, rfl⟩
  exact ⟨n - m, by push_cast; ring⟩

theorem Quant8.min {a b : ℚ} (ha : Quant8 a) (hb : Quant8 b) : Quant8 (min a b) := by
  rcases le_total a b with h | h
  · rwa [min_eq_left h]
  · rwa [min_eq_right h]

/-- On quantised amounts the eight-digit re-format is the identity: this is
the sense in which `%.8f` round-trips. -/
theorem Quant8.round8_eq {q : ℚ} (hq : Quant8 q) : round8 q = q := by
  rcases hq with ⟨n, rfl⟩
  unfold round8
  have h : (n : ℚ) / 100000000 * 100000000 = (n : ℚ) := by field_simp
  rw [h, roundHalfEven_of_intCast]

/-!
## The instrumented matching loop (claim C2)

The code loop does not record which array entry a fill consumed, so mass
conservation "for each order" is stated through a ghost-instrumented copy of
the loop: `matchStepI` is `matchStep` plus two ghost vectors `bsum`/`asum`
accumulating, per bid index and per ask index, the quantities of the fills
that entry participated in.  `matchLoopI_core` proves the instrumented loop
projects exactly onto the code loop.
-/

/-- The code loop state plus the ghost per-entry fill-quantity sums. -/
structure TracedState where
  core : LoopState
  bsum : List ℚ
  asum : List ℚ
deriving DecidableEq

/-- `matchStep` with ghost accounting: identical branching and identical
`core` effect; on a fill, the recorded quantity `round8 (min bm am)` is also
added to the two ghost sums at the current cursors. -/
def matchStepI (oh : Order → String) (maxBatch : ℤ) (t : TracedState) :
    Option TracedState :=
  if h : (t.core.fills.length : ℤ) < maxBatch ∧ t.core.i < t.core.bids.length
      ∧ t.core.j < t.core.asks.length then
    if (t.core.bids.get ⟨t.core.i, h.2.1⟩).price
        < (t.core.asks.get ⟨t.core.j, h.2.2⟩).price then none
    else
      match parseAmount (t.core.bids.get ⟨t.core.i, h.2.1⟩).makeAmount with
      | none => some ⟨⟨t.core.bids, t.core.asks, t.core.i + 1, t.core.j, t.core.fills⟩,
                      t.bsum, t.asum⟩
      | some bm =>
        match parseAmount (t.core.asks.get ⟨t.core.j, h.2.2⟩).takeAmount with
        | none => some ⟨⟨t.core.bids, t.core.asks, t.core.i, t.core.j + 1, t.core.fills⟩,
                        t.bsum, t.asum⟩
        | some am =>
          some ⟨⟨t.core.bids.set t.core.i
                   { t.core.bids.get ⟨t.core.i, h.2.1⟩ with
                     makeAmount := formatAmount (bm - min bm am) },
                 t.core.asks.set t.core.j
                   { t.core.asks.get ⟨t.core.j, h.2.2⟩ with
                     takeAmount := formatAmount (am - min bm am) },
                 (if bm - min bm am ≤ eps then t.core.i + 1 else t.core.i),
                 (if am - min bm am ≤ eps then t.core.j + 1 else t.core.j),
                 t.core.fills ++ [⟨oh (t.core.bids.get ⟨t.core.i, h.2.1⟩),
                                   oh (t.core.asks.get ⟨t.core.j, h.2.2⟩),
                                   round8 (min bm am)⟩]⟩,
                t.bsum.set t.core.i (t.bsum.getD t.core.i 0 + round8 (min bm am)),
                t.asum.set t.core.j (t.asum.getD t.core.j 0 + round8 (min bm am))⟩
  else none

/-- The instrumented loop. -/
def matchLoopI (oh : Order → String) (maxBatch : ℤ) :
    Nat → TracedState → TracedState
  | 0, t => t
  | fuel + 1, t =>
    match matchStepI oh maxBatch t with
    | none => t
    | some next => matchLoopI oh maxBatch fuel next

/-- The instrumented pipeline of `MatchAndBatch`, starting from zero ghost
sums. -/
def matcherRunI (env : HashEnv) (orders : List Order) (maxBatch : ℤ) :
    TracedState :=
  let split := splitBidsAsks (sortOrders orders)
  matchLoopI env.orderHash maxBatch
    (maxBatch.toNat + split.1.length + split.2.length + 1)
    ⟨⟨split.1, split.2, 0, 0, []⟩,
     List.replicate split.1.length 0, List.replicate split.2.length 0⟩

theorem matchStepI_core (oh : Order → String) (mb : ℤ) (t : TracedState) :
    (matchStepI oh mb t).map TracedState.core = matchStep oh mb t.core := by
  unfold matchStepI matchStep
  by_cases h : (t.core.fills.length : ℤ) < mb ∧ t.core.i < t.core.bids.length
      ∧ t.core.j < t.core.asks.length
  · rw [dif_pos h, dif_pos h]
    by_cases hc : (t.core.bids.get ⟨t.core.i, h.2.1⟩).price
        < (t.core.asks.get ⟨t.core.j, h.2.2⟩).price
    · rw [if_pos hc, if_pos hc]
      rfl
    · rw [if_neg hc, if_neg hc]
      rcases hpb : parseAmount (t.core.bids.get ⟨t.core.i, h.2.1⟩).makeAmount with _ | bm
      · rfl
      · rcases hpa : parseAmount (t.core.asks.get ⟨t.core.j, h.2.2⟩).takeAmount with _ | am
        · rfl
        · rfl
  · rw [dif_neg h, dif_neg h]
    rfl

theorem matchLoopI_core (oh : Order → String) (mb : ℤ) :
    ∀ (fuel : Nat) (t : TracedState),
      (matchLoopI oh mb fuel t).core = matchLoopF oh mb fuel t.core
  | 0, _ => rfl
  | fuel + 1, t => by
    rw [matchLoopI, matchLoopF]
    rcases hstep : matchStepI oh mb t with _ | next
    · have := matchStepI_core oh mb t
      rw [hstep] at this
      rw [← this]
      rfl
    · have := matchStepI_core oh mb t
      rw [hstep] at this
      rw [← this]
      exact matchLoopI_core oh mb fuel next

theorem matcherRunI_core (env : HashEnv) (orders : List Order) (mb : ℤ) :
    (matcherRunI env orders mb).core = matcherRun env orders mb := by
  unfold matcherRunI matcherRun
  exact matchLoopI_core _ _ _ _

/-- A parse success inverts to the stored value, which must be positive. -/
theorem parseAmount_num_inv {q bm : ℚ} (h : parseAmount (.num q) = some bm) :
    bm = q ∧ 0 < q := by
  simp only [parseAmount] at h
  by_cases hq : q ≤ 0
  · rw [if_pos hq] at h
    exact absurd h (by simp)
  · rw [if_neg hq] at h
    simp only [Option.some.injEq] at h
    exact ⟨h.symm, lt_of_not_le hq⟩

/-- Setting index `i` to its own value plus `d` adds `d` to the sum. -/
theorem sum_set_getD_add : ∀ (l : List ℚ) (i : Nat), i < l.length → ∀ d : ℚ,
    (l.set i (l.getD i 0 + d)).sum = l.sum + d
  | a :: l, 0, _, d => by
    simp only [List.getD_eq_getElem?_getD, List.getElem?_cons_zero, Option.getD_some,
      List.set_cons_zero, List.sum_cons]
    ring
  | a :: l, i + 1, h, d => by
    have ih := sum_set_getD_add l i (by simpa using h) d
    simp only [List.getD_eq_getElem?_getD, List.getElem?_cons_succ, List.set_cons_succ,
      List.sum_cons] at ih ⊢
    rw [ih]
    ring

/-- An amount string holding a positive ε-quantised value (the "pre-quantized
upstream" assumption of §9). -/
def quantPos : AmountStr → Prop
  | .num q => 0 < q ∧ Quant8 q
  | .bad _ => False

instance : DecidablePred quantPos := fun a =>
  match a with
  | .num q => (inferInstance : Decidable (0 < q ∧ Quant8 q))
  | .bad _ => isFalse id

/-- An order both of whose amounts are positive ε-quantised values. -/
def OrderQuant (o : Order) : Prop :=
  quantPos o.makeAmount ∧ quantPos o.takeAmount

instance : DecidablePred OrderQuant := fun _ => And.decidable

/-- Per-entry conservation relation for a bid entry: the original
`MakeAmount` holds a value `q0`, the current stored value is exactly
`q0 - sq` where `sq` is the entry's ghost fill sum, both non-negative and
quantised, and the entry's `TakeAmount` is untouched. -/
def BidTracks (o0 o : Order) (sq : ℚ) : Prop :=
  ∃ q0 q, o0.makeAmount = .num q0 ∧ o.makeAmount = .num q ∧
    q = q0 - sq ∧ 0 ≤ q ∧ 0 ≤ sq ∧ Quant8 q ∧ Quant8 sq ∧
    o.takeAmount = o0.takeAmount

/-- Per-entry conservation relation for an ask entry (dual). -/
def AskTracks (o0 o : Order) (sq : ℚ) : Prop :=
  ∃ q0 q, o0.takeAmount = .num q0 ∧ o.takeAmount = .num q ∧
    q = q0 - sq ∧ 0 ≤ q ∧ 0 ≤ sq ∧ Quant8 q ∧ Quant8 sq ∧
    o.makeAmount = o0.makeAmount

/-- The conservation invariant of the instrumented loop, relative to the
initial bid and ask slices `bids0`, `asks0`: lengths agree, every entry
tracks its original through its ghost sum, the ghost sums on each side total
exactly the emitted fill quantities, and every fill quantity is positive and
quantised. -/
def Tracks (bids0 asks0 : List Order) (t : TracedState) : Prop :=
  t.core.bids.length = bids0.length ∧
  t.core.asks.length = asks0.length ∧
  t.bsum.length = bids0.length ∧
  t.asum.length = asks0.length ∧
  (∀ (k : Nat) (o0 o : Order) (sq : ℚ), bids0[k]? = some o0 →
      t.core.bids[k]? = some o → t.bsum[k]? = some sq → BidTracks o0 o sq) ∧
  (∀ (k : Nat) (o0 o : Order) (sq : ℚ), asks0[k]? = some o0 →
      t.core.asks[k]? = some o → t.asum[k]? = some sq → AskTracks o0 o sq) ∧
  (t.core.fills.map Fill.quantity).sum = t.bsum.sum ∧
  (t.core.fills.map Fill.quantity).sum = t.asum.sum ∧
  ∀ f ∈ t.core.fills, 0 < f.quantity ∧ Quant8 f.quantity

theorem matchStepI_tracks {oh : Order → String} {mb : ℤ}
    {bids0 asks0 : List Order} {t next : TracedState}
    (ht : Tracks bids0 asks0 t) (hstep : matchStepI oh mb t = some next) :
    Tracks bids0 asks0 next := by
  obtain ⟨hlb, hla, hlbs, hlas, hbid, hask, hsb, hsa, hfq⟩ := ht
  unfold matchStepI at hstep
  split at hstep
  case isFalse => exact absurd hstep (by simp)
  case isTrue h =>
    split at hstep
    case isTrue => exact absurd hstep (by simp)
    case isFalse hcross =>
      rcases hpb : parseAmount (t.core.bids.get ⟨t.core.i, h.2.1⟩).makeAmount with _ | bm
      · rw [hpb] at hstep
        simp only [Option.some.injEq] at hstep
        subst hstep
        exact ⟨hlb, hla, hlbs, hlas, hbid, hask, hsb, hsa, hfq⟩
      · rw [hpb] at hstep
        rcases hpa : parseAmount (t.core.asks.get ⟨t.core.j, h.2.2⟩).takeAmount with _ | am
        · rw [hpa] at hstep
          simp only [Option.some.injEq] at hstep
          subst hstep
          exact ⟨hlb, hla, hlbs, hlas, hbid, hask, hsb, hsa, hfq⟩
        · rw [hpa] at hstep
          simp only [Option.some.injEq] at hstep
          subst hstep
          have hib : t.core.i < t.core.bids.length := h.2.1
          have hja : t.core.j < t.core.asks.length := h.2.2
          have hib0 : t.core.i < bids0.length := hlb ▸ hib
          have hja0 : t.core.j < asks0.length := hla ▸ hja
          have hibs : t.core.i < t.bsum.length := by omega
          have hjas : t.core.j < t.asum.length := by omega
          have hcurb : t.core.bids[t.core.i]? = some (t.core.bids.get ⟨t.core.i, hib⟩) := by
            rw [List.getElem?_eq_getElem hib]
            simp [List.get_eq_getElem]
          have hcura : t.core.asks[t.core.j]? = some (t.core.asks.get ⟨t.core.j, hja⟩) := by
            rw [List.getElem?_eq_getElem hja]
            simp [List.get_eq_getElem]
          obtain ⟨q0b, qb, hq0b, hqb, hqeb, hqb0, hsqb0, hbmQ, hsqbQ, htkb⟩ :=
            hbid t.core.i (bids0.get ⟨t.core.i, hib0⟩) _ (t.bsum.get ⟨t.core.i, hibs⟩)
              (by rw [List.getElem?_eq_getElem hib0]; simp [List.get_eq_getElem]) hcurb
              (by rw [List.getElem?_eq_getElem hibs]; simp [List.get_eq_getElem])
          obtain ⟨q0a, qa, hq0a, hqa, hqea, hqa0, hsqa0, hamQ, hsqaQ, htka⟩ :=
            hask t.core.j (asks0.get ⟨t.core.j, hja0⟩) _ (t.asum.get ⟨t.core.j, hjas⟩)
              (by rw [List.getElem?_eq_getElem hja0]; simp [List.get_eq_getElem]) hcura
              (by rw [List.getElem?_eq_getElem hjas]; simp [List.get_eq_getElem])
          rw [hqb] at hpb
          rw [hqa] at hpa
          obtain ⟨hbmq, hbmpos⟩ := parseAmount_num_inv hpb
          obtain ⟨hamq, hampos⟩ := parseAmount_num_inv hpa
          subst hbmq hamq
          have hminQ : Quant8 (min bm am) := Quant8.min hbmQ hamQ
          have hminpos : 0 < min bm am := lt_min hbmpos hampos
          have hr8min : round8 (min bm am) = min bm am := hminQ.round8_eq
          have hresbQ : Quant8 (bm - min bm am) := Quant8.sub hbmQ hminQ
          have hresaQ : Quant8 (am - min bm am) := Quant8.sub hamQ hminQ
          have hresb0 : 0 ≤ bm - min bm am := by
            have := min_le_left bm am
            linarith
          have hresa0 : 0 ≤ am - min bm am := by
            have := min_le_right bm am
            linarith
          refine ⟨?_, ?_, ?_, ?_, ?_, ?_, ?_, ?_, ?_⟩
          · simpa using hlb
          · simpa using hla
          · simpa using hlbs
          · simpa using hlas
          · intro k o0 o sq hk0 hk hks
            simp only at hk hks
            by_cases hki : k = t.core.i
            · subst hki
              rw [List.getElem?_set_self hib] at hk
              rw [List.getElem?_set_self hibs] at hks
              simp only [Option.some.injEq] at hk hks
              have hk0' : o0 = bids0.get ⟨t.core.i, hib0⟩ := by
                rw [List.getElem?_eq_getElem hib0] at hk0
                simp only [Option.some.injEq] at hk0
                rw [← hk0, List.get_eq_getElem]
              subst hk0'
              refine ⟨q0b, bm - min bm am, hq0b, ?_, ?_, hresb0, ?_, hresbQ, ?_, ?_⟩
              · rw [← hk]
                simp only [formatAmount]
                rw [(hresbQ).round8_eq]
              · rw [← hks]
                rw [List.getD_eq_getElem?_getD, List.getElem?_eq_getElem hibs]
                simp only [Option.getD_some, List.get_eq_getElem] at hqeb ⊢
                rw [hr8min, hqeb]
                ring
              · rw [← hks]
                rw [List.getD_eq_getElem?_getD, List.getElem?_eq_getElem hibs]
                simp only [Option.getD_some, List.get_eq_getElem] at hsqb0 ⊢
                rw [hr8min]
                positivity
              · rw [← hks]
                rw [List.getD_eq_getElem?_getD, List.getElem?_eq_getElem hibs]
                simp only [Option.getD_some, List.get_eq_getElem] at hsqbQ ⊢
                rw [hr8min]
                exact Quant8.add hsqbQ hminQ
              · rw [← hk]
                exact htkb
            · rw [List.getElem?_set_ne (fun hcontra => hki hcontra.symm)] at hk
              rw [List.getElem?_set_ne (fun hcontra => hki hcontra.symm)] at hks
              exact hbid k o0 o sq hk0 hk hks
          · intro k o0 o sq hk0 hk hks
            simp only at hk hks
            by_cases hkj : k = t.core.j
            · subst hkj
              rw [List.getElem?_set_self hja] at hk
              rw [List.getElem?_set_self hjas] at hks
              simp only [Option.some.injEq] at hk hks
              have hk0' : o0 = asks0.get ⟨t.core.j, hja0⟩ := by
                rw [List.getElem?_eq_getElem hja0] at hk0
                simp only [Option.some.injEq] at hk0
                rw [← hk0, List.get_eq_getElem]
              subst hk0'
              refine ⟨q0a, am - min bm am, hq0a, ?_, ?_, hresa0, ?_, hresaQ, ?_, ?_⟩
              · rw [← hk]
                simp only [formatAmount]
                rw [(hresaQ).round8_eq]
              · rw [← hks]
                rw [List.getD_eq_getElem?_getD, List.getElem?_eq_getElem hjas]
                simp only [Option.getD_some, List.get_eq_getElem] at hqea ⊢
                rw [hr8min, hqea]
                ring
              · rw [← hks]
                rw [List.getD_eq_getElem?_getD, List.getElem?_eq_getElem hjas]
                simp only [Option.getD_some, List.get_eq_getElem] at hsqa0 ⊢
                rw [hr8min]
                positivity
              · rw [← hks]
                rw [List.getD_eq_getElem?_getD, List.getElem?_eq_getElem hjas]
                simp only [Option.getD_some, List.get_eq_getElem] at hsqaQ ⊢
                rw [hr8min]
                exact Quant8.add hsqaQ hminQ
              · rw [← hk]
                exact htka
            · rw [List.getElem?_set_ne (fun hcontra => hkj hcontra.symm)] at hk
              rw [List.getElem?_set_ne (fun hcontra => hkj hcontra.symm)] at hks
              exact hask k o0 o sq hk0 hk hks
          · simp only [List.map_append, List.map_cons, List.map_nil, List.sum_append,
              List.sum_cons, List.sum_nil]
            rw [sum_set_getD_add t.bsum t.core.i hibs, ← hsb]
            ring
          · simp only [List.map_append, List.map_cons, List.map_nil, List.sum_append,
              List.sum_cons, List.sum_nil]
            rw [sum_set_getD_add t.asum t.core.j hjas, ← hsa]
            ring
          · intro f hf
            simp only [List.mem_append, List.mem_singleton] at hf
            rcases hf with hf | hf
            · exact hfq f hf
            · subst hf
              simp only
              rw [hr8min]
              exact ⟨hminpos, hminQ⟩

theorem matchLoopI_tracks (oh : Order → String) (mb : ℤ)
    (bids0 asks0 : List Order) :
    ∀ (fuel : Nat) (t : TracedState), Tracks bids0 asks0 t →
      Tracks bids0 asks0 (matchLoopI oh mb fuel t)
  | 0, _, ht => ht
  | fuel + 1, t, ht => by
    rw [matchLoopI]
    rcases hstep : matchStepI oh mb t with _ | next
    · exact ht
    · exact matchLoopI_tracks oh mb bids0 asks0 fuel next (matchStepI_tracks ht hstep)

theorem tracks_init (bids0 asks0 : List Order)
    (hb : ∀ o ∈ bids0, quantPos o.makeAmount)
    (ha : ∀ o ∈ asks0, quantPos o.takeAmount) :
    Tracks bids0 asks0
      ⟨⟨bids0, asks0, 0, 0, []⟩,
       List.replicate bids0.length 0, List.replicate asks0.length 0⟩ := by
  refine ⟨rfl, rfl, by simp, by simp, ?_, ?_, by simp, by simp, by simp⟩
  · intro k o0 o sq hk0 hk hks
    simp only at hk hks
    have ho : o0 = o := by
      rw [hk0] at hk
      exact (Option.some.injEq _ _ ▸ hk)
    subst ho
    have hkl : k < bids0.length := (List.getElem?_eq_some_iff.1 hk0).1
    rw [List.getElem?_replicate_of_lt hkl] at hks
    simp only [Option.some.injEq] at hks
    subst hks
    have hq := hb o0 (List.getElem?_mem hk0)
    rcases hmk : o0.makeAmount with q | sbad
    · rw [hmk] at hq
      exact ⟨q, q, hmk, hmk, by ring, le_of_lt hq.1, le_refl 0, hq.2, Quant8.zero, rfl⟩
    · rw [hmk] at hq
      exact absurd hq id
  · intro k o0 o sq hk0 hk hks
    simp only at hk hks
    have ho : o0 = o := by
      rw [hk0] at hk
      exact (Option.some.injEq _ _ ▸ hk)
    subst ho
    have hkl : k < asks0.length := (List.getElem?_eq_some_iff.1 hk0).1
    rw [List.getElem?_replicate_of_lt hkl] at hks
    simp only [Option.some.injEq] at hks
    subst hks
    have hq := ha o0 (List.getElem?_mem hk0)
    rcases hmk : o0.takeAmount with q | sbad
    · rw [hmk] at hq
      exact ⟨q, q, hmk, hmk, by ring, le_of_lt hq.1, le_refl 0, hq.2, Quant8.zero, rfl⟩
    · rw [hmk] at hq
      exact absurd hq id

/-- Membership in either half of the split is membership in the original
order list. -/
theorem mem_orders_of_mem_split {orders : List Order} {o : Order} :
    (o ∈ (splitBidsAsks (sortOrders orders)).1 ∨
     o ∈ (splitBidsAsks (sortOrders orders)).2) → o ∈ orders := by
  intro hmem
  have hperm := (splitBidsAsks_perm (sortOrders orders)).trans (sortOrders_perm orders)
  exact hperm.mem_iff.1 (List.mem_append.2 hmem)

/-- C2 (amended): on books whose amounts are positive integer multiples of
ε = 1e-8 — the "pre-quantized upstream" regime §9 of the spec assumes — the
run conserves mass exactly: the instrumented loop projects onto the code
loop; for every bid entry the ghost sum `sq` of the quantities of the fills
it participated in satisfies `0 ≤ sq ≤ q0` and its surviving copy stores
exactly `q0 - sq` (dually for asks); the ghost sums on each side total
exactly the emitted fill quantities; every fill quantity is positive and
quantised; and every order in the returned remaining list is again
quantised-positive, so the statement applies to consecutive runs. -/
theorem mass_conservation_quantised (env : HashEnv) (orders : List Order)
    (maxBatch : ℤ) (h : ∀ o ∈ orders, OrderQuant o) :
    (matcherRunI env orders maxBatch).core = matcherRun env orders maxBatch ∧
    (∀ (k : Nat) (o0 o : Order) (sq : ℚ),
      (splitBidsAsks (sortOrders orders)).1[k]? = some o0 →
      (matcherRun env orders maxBatch).bids[k]? = some o →
      (matcherRunI env orders maxBatch).bsum[k]? = some sq →
      ∃ q0, o0.makeAmount = .num q0 ∧ 0 ≤ sq ∧ sq ≤ q0 ∧
        o.makeAmount = .num (q0 - sq)) ∧
    (∀ (k : Nat) (o0 o : Order) (sq : ℚ),
      (splitBidsAsks (sortOrders orders)).2[k]? = some o0 →
      (matcherRun env orders maxBatch).asks[k]? = some o →
      (matcherRunI env orders maxBatch).asum[k]? = some sq →
      ∃ q0, o0.takeAmount = .num q0 ∧ 0 ≤ sq ∧ sq ≤ q0 ∧
        o.takeAmount = .num (q0 - sq)) ∧
    ((matcherRun env orders maxBatch).fills.map Fill.quantity).sum
      = (matcherRunI env orders maxBatch).bsum.sum ∧
    ((matcherRun env orders maxBatch).fills.map Fill.quantity).sum
      = (matcherRunI env orders maxBatch).asum.sum ∧
    (∀ f ∈ (matcherRun env orders maxBatch).fills,
      0 < f.quantity ∧ Quant8 f.quantity) ∧
    (∀ o ∈ (MatchAndBatch env orders maxBatch).remaining, OrderQuant o) := by
  have hcore := matcherRunI_core env orders maxBatch
  have htr : Tracks (splitBidsAsks (sortOrders orders)).1
      (splitBidsAsks (sortOrders orders)).2 (matcherRunI env orders maxBatch) := by
    unfold matcherRunI
    refine matchLoopI_tracks _ _ _ _ _ _ (tracks_init _ _ ?_ ?_)
    · intro o ho
      exact (h o (mem_orders_of_mem_split (Or.inl ho))).1
    · intro o ho
      exact (h o (mem_orders_of_mem_split (Or.inr ho))).2
  obtain ⟨hlb, hla, hlbs, hlas, hbid, hask, hsb, hsa, hfq⟩ := htr
  refine ⟨hcore, ?_, ?_, ?_, ?_, ?_, ?_⟩
  · intro k o0 o sq hk0 hk hks
    rw [← hcore] at hk
    obtain ⟨q0, q, hq0, hq, hqe, hq0le, hsq0, hqQ, hsqQ, htk⟩ := hbid k o0 o sq hk0 hk hks
    exact ⟨q0, hq0, hsq0, by linarith, by rw [hq, hqe]⟩
  · intro k o0 o sq hk0 hk hks
    rw [← hcore] at hk
    obtain ⟨q0, q, hq0, hq, hqe, hq0le, hsq0, hqQ, hsqQ, htk⟩ := hask k o0 o sq hk0 hk hks
    exact ⟨q0, hq0, hsq0, by linarith, by rw [hq, hqe]⟩
  · rw [← hcore]
    exact hsb
  · rw [← hcore]
    exact hsa
  · rw [← hcore]
    exact hfq
  · intro o ho
    unfold MatchAndBatch at ho
    split at ho
    case isTrue => exact h o ho
    case isFalse h2 =>
      dsimp only at ho
      by_cases hfills : (matcherRun env orders maxBatch).fills = []
      · rw [if_pos hfills] at ho
        exact h o ho
      · rw [if_neg hfills] at ho
        have hrm : (match computeMerkleRoot env (matcherRun env orders maxBatch).fills with
            | Except.error e => (⟨none, none, buildRemaining (matcherRun env orders maxBatch),
                some ("failed to compute merkle root: " ++ e)⟩ : MatchOut)
            | Except.ok root => ⟨some root, some (matcherRun env orders maxBatch).fills,
                buildRemaining (matcherRun env orders maxBatch), none⟩).remaining
            = buildRemaining (matcherRun env orders maxBatch) := by
          rcases computeMerkleRoot env (matcherRun env orders maxBatch).fills with e | r
          · rfl
          · rfl
        rw [hrm] at ho
        rw [buildRemaining_eq_of_pruned (matcherRun_pruned env orders maxBatch)] at ho
        rcases List.mem_append.1 ho with hm | hm
        · obtain ⟨hmem, hkeep⟩ := List.mem_filter.1 hm
          have hmem' : o ∈ (matcherRun env orders maxBatch).bids :=
            List.mem_of_mem_drop hmem
          obtain ⟨k, hk⟩ := List.getElem?_of_mem hmem'
          have hkl : k < (matcherRun env orders maxBatch).bids.length :=
            (List.getElem?_eq_some_iff.1 hk).1
          have hkl0 : k < (splitBidsAsks (sortOrders orders)).1.length := by
            rw [← hlb, hcore]
            exact hkl
          have hkls : k < (matcherRunI env orders maxBatch).bsum.length := by omega
          obtain ⟨q0, q, hq0, hq, hqe, hq0le, hsq0, hqQ, hsqQ, htk⟩ :=
            hbid k ((splitBidsAsks (sortOrders orders)).1.get ⟨k, hkl0⟩) o
              ((matcherRunI env orders maxBatch).bsum.get ⟨k, hkls⟩)
              (by rw [List.getElem?_eq_getElem hkl0]; simp [List.get_eq_getElem])
              (by rw [← hcore] at hk; exact hk)
              (by rw [List.getElem?_eq_getElem hkls]; simp [List.get_eq_getElem])
          have hpos : 0 < q := by
            unfold keepBid at hkeep
            rw [hq] at hkeep
            simp only [parseAmount] at hkeep
            by_cases hle : q ≤ 0
            · rw [if_pos hle] at hkeep
              exact absurd hkeep (by simp)
            · exact lt_of_not_le hle
          refine ⟨by rw [hq]; exact ⟨hpos, hqQ⟩, ?_⟩
          · rw [htk]
            exact (h _ (mem_orders_of_mem_split (Or.inl (List.getElem?_mem
              (by rw [List.getElem?_eq_getElem hkl0]; simp [List.get_eq_getElem]))))).2
        · obtain ⟨hmem, hkeep⟩ := List.mem_filter.1 hm
          have hmem' : o ∈ (matcherRun env orders maxBatch).asks :=
            List.mem_of_mem_drop hmem
          obtain ⟨k, hk⟩ := List.getElem?_of_mem hmem'
          have hkl : k < (matcherRun env orders maxBatch).asks.length :=
            (List.getElem?_eq_some_iff.1 hk).1
          have hkl0 : k < (splitBidsAsks (sortOrders orders)).2.length := by
            rw [← hla, hcore]
            exact hkl
          have hkls : k < (matcherRunI env orders maxBatch).asum.length := by omega
          obtain ⟨q0, q, hq0, hq, hqe, hq0le, hsq0, hqQ, hsqQ, htk⟩ :=
            hask k ((splitBidsAsks (sortOrders orders)).2.get ⟨k, hkl0⟩) o
              ((matcherRunI env orders maxBatch).asum.get ⟨k, hkls⟩)
              (by rw [List.getElem?_eq_getElem hkl0]; simp [List.get_eq_getElem])
              (by rw [← hcore] at hk; exact hk)
              (by rw [List.getElem?_eq_getElem hkls]; simp [List.get_eq_getElem])
          have hpos : 0 < q := by
            unfold keepAsk at hkeep
            rw [hq] at hkeep
            simp only [parseAmount] at hkeep
            by_cases hle : q ≤ 0
            · rw [if_pos hle] at hkeep
              exact absurd hkeep (by simp)
            · exact lt_of_not_le hle
          refine ⟨?_, by rw [hq]; exact ⟨hpos, hqQ⟩⟩
          · rw [htk]
            exact (h _ (mem_orders_of_mem_split (Or.inr (List.getElem?_mem
              (by rw [List.getElem?_eq_getElem hkl0]; simp [List.get_eq_getElem]))))).1

/-!
## Concrete inputs for witnesses and counterexamples
-/

/-- A bid whose `MakeAmount` is positive but below ε: `"0.000000006"`
(6e-9).  Admission validation (`validateOrder`) accepts it — it only
requires positivity. -/
def c2bid : Order := ⟨"0xb1", "T", .num (6 / 1000000000), .num 600, 3 / 5, 1, "sb"⟩

/-- The crossing ask for the C2 counterexample. -/
def c2ask : Order := ⟨"0xb2", "T", .num 300, .num 500, 1 / 2, 2, "sa"⟩

/- C2 counterexample: on the two-order book `[c2bid, c2ask]` the run emits
exactly one fill, whose recorded quantity (`formatAmount` of the internal
fill quantity, i.e. `round8 6e-9 = 1e-8`) *exceeds* the bid's original
`make_amount` of 6e-9.  The sum of the quantities of the fills in which the
bid participates is therefore strictly greater than its original
`make_amount`, refuting the claim as stated. -/
unseal Rat.add Rat.mul Rat.sub Rat.inv in
theorem mass_conservation_counterexample :
    c2bid.makeAmount = .num (6 / 1000000000) ∧
    (MatchAndBatch wEnv [c2bid, c2ask] 10).fills
      = some [⟨"0xb1", "0xb2", 1 / 100000000⟩] ∧
    ¬ ((1 : ℚ) / 100000000 ≤ 6 / 1000000000) :=
  ⟨rfl, by decide, by decide⟩

/- Witness for C2 (amended): the quantised two-order book admits the
conservation theorem; its hypotheses hold by computation. -/
unseal Rat.add Rat.mul Rat.sub Rat.inv in
theorem mass_conservation_quantised_witness :
    (∀ o ∈ [w1bid, w1ask], OrderQuant o) ∧
    ((matcherRun wEnv [w1bid, w1ask] 10).fills.map Fill.quantity).sum
      = (matcherRunI wEnv [w1bid, w1ask] 10).bsum.sum :=
  ⟨by decide, (mass_conservation_quantised wEnv [w1bid, w1ask] 10 (by decide)).2.2.2.1⟩

/- Witness for C1: the two-order book emits one fill, and the remaining
list is the filtered suffix pair. -/
unseal Rat.add Rat.mul Rat.sub Rat.inv in
theorem remaining_eq_filtered_suffixes_witness :
    (matcherRun wEnv [w1bid, w1ask] 10).fills ≠ [] ∧
    (MatchAndBatch wEnv [w1bid, w1ask] 10).remaining =
      ((matcherRun wEnv [w1bid, w1ask] 10).bids.drop
          (matcherRun wEnv [w1bid, w1ask] 10).i).filter keepBid
        ++ ((matcherRun wEnv [w1bid, w1ask] 10).asks.drop
          (matcherRun wEnv [w1bid, w1ask] 10).j).filter keepAsk :=
  ⟨by decide, (remaining_eq_filtered_suffixes wEnv [w1bid, w1ask] 10 (by decide)).1⟩

/- Witness for C10: a two-order book with `maxBatch = 0` comes back
unchanged with no root, no fills and no error. -/
unseal Rat.add Rat.mul Rat.sub Rat.inv in
theorem matchAndBatch_nonpositive_maxBatch_witness :
    MatchAndBatch wEnv [w1bid, w1ask] 0 = ⟨none, none, [w1bid, w1ask], none⟩ :=
  matchAndBatch_nonpositive_maxBatch wEnv [w1bid, w1ask] 0 (by decide)

/-!
## The Merkle refinement (claim C8)
-/

theorem levelPass_length (sha : List Nat → List Nat) :
    ∀ l : List (List Nat), (levelPass sha l).length = (l.length + 1) / 2
  | [] => rfl
  | [_] => by simp [levelPass]
  | _ :: _ :: rest => by
    simp only [levelPass, List.length_cons, levelPass_length sha rest]
    omega

/-- The spec's pad-then-pair level equals the code's pair-with-self-at-odd-end
level. -/
theorem specMerkleLevel_eq_levelPass (sha : List Nat → List Nat) :
    ∀ l : List (List Nat), specMerkleLevel sha l = levelPass sha l
  | [] => rfl
  | [x] => by
    unfold specMerkleLevel
    simp only [List.length_cons, List.length_nil]
    rfl
  | x :: y :: rest => by
    unfold specMerkleLevel
    try dsimp only
    rcases rest with _ | ⟨z, r⟩
    · rw [if_neg (by simp)]
      rfl
    · have ih := specMerkleLevel_eq_levelPass sha (z :: r)
      unfold specMerkleLevel at ih
      try dsimp only at ih
      by_cases hodd : (z :: r).length % 2 = 1
      · have hodd' : (x :: y :: z :: r).length % 2 = 1 := by
          simp only [List.length_cons] at hodd ⊢
          omega
        rw [if_pos hodd] at ih
        rw [if_pos hodd']
        have hlast : (x :: y :: z :: r).getLast? = (z :: r).getLast? := by
          rfl
        rw [hlast]
        show sha (x ++ y) :: levelPassEven sha ((z :: r) ++ [(z :: r).getLast?.getD []])
          = levelPass sha (x :: y :: z :: r)
        rw [ih]
        rfl
      · have hodd' : ¬ (x :: y :: z :: r).length % 2 = 1 := by
          simp only [List.length_cons] at hodd ⊢
          omega
        rw [if_neg hodd] at ih
        rw [if_neg hodd']
        show sha (x ++ y) :: levelPassEven sha (z :: r) = levelPass sha (x :: y :: z :: r)
        rw [ih]
        rfl

/-- The spec reduction ignores excess fuel. -/
theorem specMerkleRootF_fuel (sha : List Nat → List Nat) :
    ∀ (fuel fuel' : Nat) (l : List (List Nat)), 1 ≤ l.length →
      l.length ≤ fuel → l.length ≤ fuel' →
      specMerkleRootF sha fuel l = specMerkleRootF sha fuel' l
  | 0, _, _, h1, h2, _ => by omega
  | _ + 1, 0, _, h1, _, h3 => by omega
  | fuel + 1, fuel' + 1, l, h1, h2, h3 => by
    rw [specMerkleRootF, specMerkleRootF]
    try dsimp only
    by_cases hone : (specMerkleLevel sha l).length = 1
    · rw [if_pos hone, if_pos hone]
    · rw [if_neg hone, if_neg hone]
      have hlen : (specMerkleLevel sha l).length = (l.length + 1) / 2 := by
        rw [specMerkleLevel_eq_levelPass, levelPass_length]
      have hl2 : 2 ≤ l.length := by
        rcases Nat.lt_or_ge l.length 2 with hc | hc
        · exfalso
          apply hone
          rw [hlen]
          omega
        · exact hc
      exact specMerkleRootF_fuel sha fuel fuel' _ (by omega) (by omega) (by omega)

/-- The code's `buildIntermediate` computes the spec's level reduction. -/
theorem buildIntermediate_eq_spec (sha : List Nat → List Nat) :
    ∀ (fuel : Nat) (l : List (List Nat)), 2 ≤ l.length → l.length ≤ fuel →
      buildIntermediate sha fuel l = specMerkleRootF sha fuel l
  | 0, _, h1, h2 => by omega
  | fuel + 1, l, h1, h2 => by
    rcases l with _ | ⟨x, _ | ⟨y, _ | ⟨z, r⟩⟩⟩
    · simp at h1
    · simp at h1
    · rw [buildIntermediate, specMerkleRootF]
      try dsimp only
      have hlv : specMerkleLevel sha [x, y] = [sha (x ++ y)] := by
        rw [specMerkleLevel_eq_levelPass]
        rfl
      rw [hlv]
      rfl
    · rw [buildIntermediate, specMerkleRootF]
      try dsimp only
      have hlen : (specMerkleLevel sha (x :: y :: z :: r)).length
          = ((x :: y :: z :: r).length + 1) / 2 := by
        rw [specMerkleLevel_eq_levelPass, levelPass_length]
      have hone : ¬ (specMerkleLevel sha (x :: y :: z :: r)).length = 1 := by
        rw [hlen]
        simp only [List.length_cons]
        omega
      rw [if_neg hone]
      rw [specMerkleLevel_eq_levelPass]
      have hlen' : (levelPass sha (x :: y :: z :: r)).length
          = ((x :: y :: z :: r).length + 1) / 2 := levelPass_length sha _
      refine buildIntermediate_eq_spec sha fuel _ ?_ ?_
      · rw [hlen']
        simp only [List.length_cons]
        omega
      · rw [hlen']
        simp only [List.length_cons] at h2 ⊢
        omega
      · intro a b hab
        simp at hab

/-- C8: `computeMerkleRoot` errors exactly on the empty fill sequence, and on
every non-empty fill sequence returns precisely the digest §4.3 of the
specification describes: leaf-hash each fill, then reduce levels pairwise
with `sha(left ‖ right)`, duplicating the last node of any odd level before
pairing, down to a single node. -/
theorem computeMerkleRoot_correct (env : HashEnv) (fills : List Fill) :
    (fills = [] →
      computeMerkleRoot env fills = .error "cannot compute merkle root for empty fills") ∧
    (fills ≠ [] →
      computeMerkleRoot env fills = .ok (specMerkleRoot env fills)) := by
  constructor
  · rintro rfl
    rfl
  · intro hne
    rcases hf : fills with _ | ⟨f, fs⟩
    · exact absurd hf hne
    subst hf
    unfold computeMerkleRoot specMerkleRoot
    try dsimp only
    congr 1
    have hfl : (f :: fs).length = fs.length + 1 := by simp
    set leafs := (f :: fs).map env.leafHash with hleafs
    have hlen : leafs.length = fs.length + 1 := by
      rw [hleafs]
      simp
    by_cases hodd : leafs.length % 2 = 1
    · rw [if_pos hodd]
      set padded := leafs ++ [leafs.getLast?.getD []] with hpadded
      have hpadlen : padded.length = leafs.length + 1 := by
        rw [hpadded]
        simp
      have h2 : 2 ≤ padded.length := by omega
      rw [buildIntermediate_eq_spec env.sha _ _ h2 (by omega)]
      have hne2 : ¬ padded.length % 2 = 1 := by omega
      have hlevel : specMerkleLevel env.sha padded = specMerkleLevel env.sha leafs := by
        unfold specMerkleLevel
        try dsimp only
        rw [if_neg hne2, if_pos hodd, ← hpadded]
      rw [specMerkleRootF, specMerkleRootF]
      try dsimp only
      rw [hlevel]
      by_cases hone : (specMerkleLevel env.sha leafs).length = 1
      · rw [if_pos hone, if_pos hone]
      · rw [if_neg hone, if_neg hone]
        have hl : (specMerkleLevel env.sha leafs).length = (leafs.length + 1) / 2 := by
          rw [specMerkleLevel_eq_levelPass, levelPass_length]
        refine specMerkleRootF_fuel env.sha _ _ _ ?_ ?_ ?_
        · rw [hl]
          omega
        · rw [hl]
          omega
        · rw [hl, hfl]
          omega
    · rw [if_neg hodd]
      have h2 : 2 ≤ leafs.length := by omega
      rw [buildIntermediate_eq_spec env.sha _ _ h2 (by omega)]
      refine specMerkleRootF_fuel env.sha _ _ _ (by omega) (by omega) ?_
      rw [hfl]
      omega

/-- Concrete fills for the C8 witness. -/
def wf1 : Fill := ⟨"m1", "t1", 1⟩

def wf2 : Fill := ⟨"m2", "t2", 2⟩

def wf3 : Fill := ⟨"m3longer", "t3", 3⟩

/- Witness for C8: a concrete three-fill batch (odd leaf level, so the
duplication path is exercised); both sides evaluate. -/
theorem computeMerkleRoot_correct_witness :
    ([wf1, wf2, wf3] ≠ ([] : List Fill)) ∧
    computeMerkleRoot wEnv [wf1, wf2, wf3] = .ok (specMerkleRoot wEnv [wf1, wf2, wf3]) :=
  ⟨by decide, (computeMerkleRoot_correct wEnv [wf1, wf2, wf3]).2 (by decide)⟩

end Clob

/-!
## The settlement submitter (`cmd/submitter/submitter.go`)

Chain interactions are network I/O; each RPC call of one submission attempt
is modelled as an oracle field of `AttemptEnv` (its result on that call).
`SubmitBatch` makes up to `maxRetries` attempts, each against its own
environment (`envs k` is the chain's behaviour on attempt `k`); the back-off
sleeps between attempts do not affect the data flow and are not modelled.
Wall-clock time enters only as the `Timestamp` field of a `FailedBatch` and
is passed in as `now`.
-/

namespace Submitter

/-- A mined-transaction receipt as the submitter reads it. -/
structure Receipt where
  status : Nat
  blockNumber : Nat
deriving DecidableEq

/-- The oracle for one `attemptSubmitBatch` call (`submitter.go`): the
result of each chain interaction, in program order.  `transact` receives the
nonce, gas limit, gas price and chain id the code computed — so a theorem
about the call's arguments is a theorem about what the code sends. -/
structure AttemptEnv where
  pack : Except String (List Nat)
  pendingNonce : Except String Nat
  estimateGas : Except String Nat
  suggestGasPrice : Except String Nat
  networkID : Except String Nat
  newTransactor : Except String Unit
  transact : Nat → Nat → Nat → Nat → Except String String
  waitMined : Except String Receipt

/-- The gas limit of `attemptSubmitBatch`:
`gasLimit := uint64(float64(gasEstimate) * 1.2)`.  The binary64 constant
`1.2` is `1.2 + 2⁻⁵² · 0.2…` (slightly above 6/5), and the `uint64`
conversion truncates toward zero; for estimates below 2⁴⁹ (every realistic
gas value — gas is bounded by the block limit, far below 2⁴⁹) the truncated
product equals `⌊6·e/5⌋` exactly, which is how it is modelled. -/
def gasLimitOf (gasEstimate : Nat) : Nat := 6 * gasEstimate / 5

/-- The gas price of `attemptSubmitBatch`: the node's suggestion, or the
hard-coded 20 gwei fallback when the query fails (a log, not an error). -/
def gasPriceOf (env : AttemptEnv) : Nat :=
  match env.suggestGasPrice with
  | .error _ => 20000000000
  | .ok p => p

/-- Go `attemptSubmitBatch` (`submitter.go`): pack the calldata, fetch the
pending nonce, estimate gas (with the 20% buffer), fetch gas price (with
fallback), chain id, build the transactor, broadcast, and wait for mining —
returning the transaction hash as success when the wait itself fails, and an
error when the receipt reports status 0 (reverted). -/
def attemptSubmitBatch (env : AttemptEnv) : Except String String :=
  match env.pack with
  | .error e => .error ("failed to pack transaction data: " ++ e)
  | .ok _ =>
    match env.pendingNonce with
    | .error e => .error ("failed to get pending nonce: " ++ e)
    | .ok nonce =>
      match env.estimateGas with
      | .error e => .error ("failed to estimate gas: " ++ e)
      | .ok gasEstimate =>
        match env.networkID with
        | .error e => .error ("failed to get chain ID: " ++ e)
        | .ok chainID =>
          match env.newTransactor with
          | .error e => .error ("failed to create auth: " ++ e)
          | .ok _ =>
            match env.transact nonce (gasLimitOf gasEstimate) (gasPriceOf env) chainID with
            | .error e => .error ("failed to submit transaction: " ++ e)
            | .ok txHash =>
              match env.waitMined with
              | .error _ => .ok txHash
              | .ok receipt =>
                if receipt.status = 0 then
                  .error "transaction failed with status 0 (reverted)"
                else .ok txHash

/-- The `FailedBatch` struct of `submitter.go`. -/
structure FailedBatch where
  root : String
  fills : List Nat
  sig : List Nat
  timestamp : Nat
  attempts : Nat
deriving DecidableEq

/-- The retry loop of `SubmitBatch` (and of `RetryFailedBatches`): attempts
numbered from `attempt` while `remaining` attempts are left; `some tx` on
the first success, `none` when every attempt failed. -/
def submitLoop (envs : Nat → AttemptEnv) : Nat → Nat → Option String
  | 0, _ => none
  | remaining + 1, attempt =>
    match attemptSubmitBatch (envs attempt) with
    | .ok tx => some tx
    | .error _ => submitLoop envs remaining (attempt + 1)

/-- Go `SubmitBatch(root, fills, aggSig)` (`submitter.go`): up to
`maxRetries` attempts (numbered 1..maxRetries); on first success return its
transaction hash; when all fail, append one `FailedBatch` carrying the same
root, fills and signature (with `Attempts = maxRetries` and the current
time) to the failed queue and return an error. -/
def SubmitBatch (envs : Nat → AttemptEnv) (maxRetries : Nat) (now : Nat)
    (root : String) (fills aggSig : List Nat) (queue : List FailedBatch) :
    Except String String × List FailedBatch :=
  match submitLoop envs maxRetries 1 with
  | some tx => (.ok tx, queue)
  | none =>
    (.error ("batch submission failed after " ++ toString maxRetries ++ " attempts"),
     queue ++ [⟨root, fills, aggSig, now, maxRetries⟩])

/-- The per-batch scan of Go `RetryFailedBatches`: iterate the snapshot in
order; for each batch run the inner retry loop; collect the successful
indices in encounter order and count the failures (the Go
`successfulIndices` slice and `failCount`). -/
def retryScan (renv : Nat → Nat → AttemptEnv) (maxRetries n : Nat) :
    List Nat × Nat :=
  (List.range n).foldl
    (fun acc i =>
      match submitLoop (fun k => renv i k) maxRetries 1 with
      | some _ => (acc.1 ++ [i], acc.2)
      | none => (acc.1, acc.2 + 1))
    ([], 0)

/-- One removal step of Go `RetryFailedBatches`: when `idx` is still in
range, `failedBatches = append(failedBatches[:idx], failedBatches[idx+1:]...)`,
otherwise a no-op. -/
def eraseStep (acc : List FailedBatch) (idx : Nat) : List FailedBatch :=
  if idx < acc.length then acc.eraseIdx idx else acc

/-- The removal phase of Go `RetryFailedBatches`: iterate the collected
successful indices in reverse, erasing each position that is still in
range. -/
def removeSuccessful (queue : List FailedBatch) (idxs : List Nat) :
    List FailedBatch :=
  idxs.reverse.foldl eraseStep queue

/-- Go `RetryFailedBatches` (`submitter.go`) under no concurrent enqueues
(the queue at removal time is the snapshot): early-out on an empty queue;
scan the snapshot; remove the successful entries by original index in
reverse; error when any batch still failed. -/
def RetryFailedBatches (renv : Nat → Nat → AttemptEnv) (maxRetries : Nat)
    (queue : List FailedBatch) : List FailedBatch × Option String :=
  if queue.length = 0 then (queue, none)
  else
    let scan := retryScan renv maxRetries queue.length
    let newQueue :=
      if 0 < scan.1.length then removeSuccessful queue scan.1 else queue
    (newQueue,
     if 0 < scan.2 then
       some ("failed to retry " ++ toString scan.2 ++ " batches")
     else none)

/-- The queue §4.6 of the specification requires after `retry_all`: exactly
the snapshot entries whose resubmission did not succeed, in original order
(the predicate is consulted at the entry's original position). -/
def keepFailed (succ : Nat → Bool) : List FailedBatch → List FailedBatch
  | [] => []
  | b :: rest =>
    if succ 0 then keepFailed (fun i => succ (i + 1)) rest
    else b :: keepFailed (fun i => succ (i + 1)) rest

end Submitter

namespace Clob

end Clob

namespace Submitter

theorem submitLoop_all_fail (envs : Nat → AttemptEnv) :
    ∀ remaining attempt,
      (∀ k, attempt ≤ k → k < attempt + remaining →
        ∃ e, attemptSubmitBatch (envs k) = .error e) →
      submitLoop envs remaining attempt = none := by
  intro remaining
  induction remaining with
  | zero => intro attempt _; rfl
  | succ r ih =>
    intro attempt h
    obtain ⟨e, he⟩ := h attempt le_rfl (by omega)
    rw [submitLoop, he]
    exact ih (attempt + 1) (fun k hk1 hk2 => h k (by omega) (by omega))

theorem submitLoop_first_ok (envs : Nat → AttemptEnv) :
    ∀ remaining attempt k tx, attempt ≤ k → k < attempt + remaining →
      attemptSubmitBatch (envs k) = .ok tx →
      (∀ k', attempt ≤ k' → k' < k →
        ∃ e, attemptSubmitBatch (envs k') = .error e) →
      submitLoop envs remaining attempt = some tx := by
  intro remaining
  induction remaining with
  | zero => intro attempt k tx h1 h2 _ _; omega
  | succ r ih =>
    intro attempt k tx h1 h2 hok hfail
    by_cases hak : attempt = k
    · subst hak; rw [submitLoop, hok]
    · obtain ⟨e, he⟩ := hfail attempt le_rfl (by omega)
      rw [submitLoop, he]
      exact ih (attempt + 1) k tx (by omega) (by omega) hok
        (fun k' hk1 hk2 => hfail k' (by omega) hk2)

theorem submitLoop_congr (envs envs' : Nat → AttemptEnv) :
    ∀ remaining attempt,
      (∀ k, attempt ≤ k → k < attempt + remaining → envs k = envs' k) →
      submitLoop envs remaining attempt = submitLoop envs' remaining attempt := by
  intro remaining
  induction remaining with
  | zero => intro attempt _; rfl
  | succ r ih =>
    intro attempt h
    rw [submitLoop, submitLoop, h attempt le_rfl (by omega)]
    cases attemptSubmitBatch (envs' attempt) with
    | ok tx => rfl
    | error e => exact ih (attempt + 1) (fun k hk1 hk2 => h k (by omega) (by omega))

/-- C5: `SubmitBatch` consults at most the environments of attempts
`1..maxRetries` (so it performs at most `maxRetries` attempts); when every
one of those attempts fails it appends exactly one `FailedBatch` carrying
the same root, fills and aggregated signature (with `Attempts = maxRetries`)
to the failed queue and returns an error; and when attempt `k` is the first
to succeed, its transaction hash is returned with no error and the queue is
untouched. -/
theorem submitBatch_retry_contract (envs envs' : Nat → AttemptEnv)
    (maxRetries now : Nat) (root : String) (fills aggSig : List Nat)
    (queue : List FailedBatch) :
    ((∀ k, 1 ≤ k → k ≤ maxRetries → envs k = envs' k) →
      SubmitBatch envs maxRetries now root fills aggSig queue
        = SubmitBatch envs' maxRetries now root fills aggSig queue) ∧
    ((∀ k, 1 ≤ k → k ≤ maxRetries →
        ∃ e, attemptSubmitBatch (envs k) = .error e) →
      SubmitBatch envs maxRetries now root fills aggSig queue
        = (.error ("batch submission failed after " ++ toString maxRetries
            ++ " attempts"),
           queue ++ [⟨root, fills, aggSig, now, maxRetries⟩])) ∧
    (∀ k tx, 1 ≤ k → k ≤ maxRetries →
      attemptSubmitBatch (envs k) = .ok tx →
      (∀ k', 1 ≤ k' → k' < k →
        ∃ e, attemptSubmitBatch (envs k') = .error e) →
      SubmitBatch envs maxRetries now root fills aggSig queue
        = (.ok tx, queue)) := by
  refine ⟨?_, ?_, ?_⟩
  · intro h
    rw [SubmitBatch, SubmitBatch,
      submitLoop_congr envs envs' maxRetries 1
        (fun k hk1 hk2 => h k hk1 (by omega))]
  · intro h
    rw [SubmitBatch,
      submitLoop_all_fail envs maxRetries 1
        (fun k hk1 hk2 => h k hk1 (by omega))]
  · intro k tx hk1 hk2 hok hfail
    rw [SubmitBatch,
      submitLoop_first_ok envs maxRetries 1 k tx hk1 (by omega) hok hfail]

/-- An environment whose every chain call fails. -/
def c5failEnv : AttemptEnv where
  pack := .error "rpc down"
  pendingNonce := .error "rpc down"
  estimateGas := .error "rpc down"
  suggestGasPrice := .error "rpc down"
  networkID := .error "rpc down"
  newTransactor := .error "rpc down"
  transact := fun _ _ _ _ => .error "rpc down"
  waitMined := .error "rpc down"

/-- An environment whose every chain call succeeds and whose broadcast is
mined with status 1. -/
def c5okEnv : AttemptEnv where
  pack := .ok [1, 2]
  pendingNonce := .ok 7
  estimateGas := .ok 100
  suggestGasPrice := .ok 9
  networkID := .ok 31337
  newTransactor := .ok ()
  transact := fun _ _ _ _ => .ok "0xabc"
  waitMined := .ok ⟨1, 42⟩

/- Witness: with every attempt failing, `SubmitBatch` enqueues the batch and
errors; with attempt 2 the first success, it returns that hash untouched. -/
theorem submitBatch_retry_contract_witness :
    SubmitBatch (fun _ => c5failEnv) 3 11 "r" [1] [2] []
      = (.error "batch submission failed after 3 attempts",
         [⟨"r", [1], [2], 11, 3⟩]) ∧
    SubmitBatch
        (fun k => if k = 2 then c5okEnv else c5failEnv) 3 11 "r" [1] [2] []
      = (.ok "0xabc", []) := by
  constructor
  · exact (submitBatch_retry_contract (fun _ => c5failEnv) (fun _ => c5failEnv)
      3 11 "r" [1] [2] []).2.1
      (fun k _ _ => ⟨"failed to pack transaction data: rpc down", rfl⟩)
  · exact (submitBatch_retry_contract
      (fun k => if k = 2 then c5okEnv else c5failEnv)
      (fun k => if k = 2 then c5okEnv else c5failEnv)
      3 11 "r" [1] [2] []).2.2 2 "0xabc" (by omega) (by omega) rfl
      (fun k' h1 h2 => by
        have : k' = 1 := by omega
        subst this
        exact ⟨"failed to pack transaction data: rpc down", rfl⟩)

/-- C6: within one submission attempt, once the transaction has been
broadcast (every pre-broadcast chain call succeeded and `Transact` returned
hash `tx`): if waiting for mining fails or times out the attempt returns the
already-broadcast hash `tx` with no error, and if a receipt arrives with
status 0 the attempt returns the "reverted" error and no transaction id. -/
theorem attempt_after_broadcast (env : AttemptEnv) (data : List Nat)
    (nonce est chainID : Nat) (tx : String)
    (hp : env.pack = .ok data) (hn : env.pendingNonce = .ok nonce)
    (he : env.estimateGas = .ok est) (hc : env.networkID = .ok chainID)
    (ha : env.newTransactor = .ok ())
    (ht : env.transact nonce (gasLimitOf est) (gasPriceOf env) chainID
      = .ok tx) :
    (∀ e, env.waitMined = .error e → attemptSubmitBatch env = .ok tx) ∧
    (∀ r, env.waitMined = .ok r → r.status = 0 →
      attemptSubmitBatch env
        = .error "transaction failed with status 0 (reverted)") := by
  constructor
  · intro e hw
    simp only [attemptSubmitBatch, hp, hn, he, hc, ha, ht, hw]
  · intro r hw hs
    simp only [attemptSubmitBatch, hp, hn, he, hc, ha, ht, hw]
    simp [hs]

/-- An environment whose wait-for-mining step times out. -/
def c6timeoutEnv : AttemptEnv where
  pack := .ok []
  pendingNonce := .ok 1
  estimateGas := .ok 10
  suggestGasPrice := .error "no suggestion"
  networkID := .ok 5
  newTransactor := .ok ()
  transact := fun _ _ _ _ => .ok "0xdead"
  waitMined := .error "timeout"

/-- An environment whose broadcast is mined with a reverted receipt. -/
def c6revertEnv : AttemptEnv where
  pack := .ok []
  pendingNonce := .ok 1
  estimateGas := .ok 10
  suggestGasPrice := .ok 8
  networkID := .ok 5
  newTransactor := .ok ()
  transact := fun _ _ _ _ => .ok "0xdead"
  waitMined := .ok ⟨0, 42⟩

/- Witness: the timeout environment yields the broadcast hash as success;
the reverted-receipt environment yields the "reverted" error. -/
theorem attempt_after_broadcast_witness :
    attemptSubmitBatch c6timeoutEnv = .ok "0xdead" ∧
    attemptSubmitBatch c6revertEnv
      = .error "transaction failed with status 0 (reverted)" := by
  constructor
  · exact (attempt_after_broadcast c6timeoutEnv [] 1 10 5 "0xdead"
      rfl rfl rfl rfl rfl rfl).1 "timeout" rfl
  · exact (attempt_after_broadcast c6revertEnv [] 1 10 5 "0xdead"
      rfl rfl rfl rfl rfl rfl).2 ⟨0, 42⟩ rfl rfl

/-- C7 (amended): the gas limit attached to the transaction is the node's
estimate multiplied by 1.2 and truncated — `⌊est · 6/5⌋`, not rounded up —
and under successful pre-broadcast calls the attempt's outcome is exactly
`Transact` consulted at that truncated gas limit. -/
theorem gas_limit_twenty_percent (env : AttemptEnv) (data : List Nat)
    (nonce est chainID : Nat)
    (hp : env.pack = .ok data) (hn : env.pendingNonce = .ok nonce)
    (he : env.estimateGas = .ok est) (hc : env.networkID = .ok chainID)
    (ha : env.newTransactor = .ok ()) :
    ((gasLimitOf est : ℤ) = ⌊(est : ℚ) * (6 / 5)⌋) ∧
    attemptSubmitBatch env
      = match env.transact nonce (gasLimitOf est) (gasPriceOf env) chainID with
        | .error e => .error ("failed to submit transaction: " ++ e)
        | .ok txHash =>
          match env.waitMined with
          | .error _ => .ok txHash
          | .ok receipt =>
            if receipt.status = 0 then
              .error "transaction failed with status 0 (reverted)"
            else .ok txHash := by
  constructor
  · have h : ((est : ℚ)) * (6 / 5) = ((6 * est : ℤ) : ℚ) / ((5 : ℕ) : ℚ) := by
      push_cast; ring
    rw [h, Rat.floor_intCast_div_natCast]
    rw [gasLimitOf]
    push_cast [Int.ofNat_div]
    norm_num
  · simp only [attemptSubmitBatch, hp, hn, he, hc, ha]

/-- An environment with gas estimate 3 whose `Transact` oracle echoes the
gas limit it receives as the transaction hash, exposing the attached limit
in the attempt's result. -/
def c7env : AttemptEnv where
  pack := .ok []
  pendingNonce := .ok 7
  estimateGas := .ok 3
  suggestGasPrice := .ok 9
  networkID := .ok 1
  newTransactor := .ok ()
  transact := fun _ g _ _ => .ok (toString g)
  waitMined := .error "timeout"

/- Counterexample to C7 as stated: with gas estimate 3, the attempt
broadcasts with gas limit 3 (echoed back as the transaction hash), while
3 · 1.2 rounded up would be 4. -/
theorem gas_limit_not_rounded_up :
    gasLimitOf 3 = 3 ∧
    attemptSubmitBatch c7env = .ok (toString (gasLimitOf 3)) ∧
    ⌈(3 : ℚ) * (6 / 5)⌉ = 4 := by
  refine ⟨rfl, rfl, ?_⟩
  norm_num [Int.ceil_eq_iff]

/- Witness: the amended theorem at the concrete echo environment. -/
theorem gas_limit_twenty_percent_witness :
    ((gasLimitOf 3 : ℤ) = ⌊(3 : ℚ) * (6 / 5)⌋) ∧
    attemptSubmitBatch c7env = .ok (toString (gasLimitOf 3)) := by
  have h := gas_limit_twenty_percent c7env [] 7 3 1 rfl rfl rfl rfl rfl
  refine ⟨by exact_mod_cast h.1, ?_⟩
  rw [h.2]
  rfl

end Submitter

namespace Submitter

theorem foldl_scan_eq (optOf : Nat → Option String) :
    ∀ (l : List Nat) (acc : List Nat × Nat),
      l.foldl (fun acc i =>
        match optOf i with
        | some _ => (acc.1 ++ [i], acc.2)
        | none => (acc.1, acc.2 + 1)) acc
      = (acc.1 ++ l.filter (fun i => (optOf i).isSome),
         acc.2 + (l.filter (fun i => (optOf i).isNone)).length) := by
  intro l
  induction l with
  | nil => intro acc; simp
  | cons i rest ih =>
    intro acc
    rw [List.foldl_cons]
    cases h : optOf i with
    | some tx =>
      rw [ih]
      simp [List.filter_cons, h]
    | none =>
      rw [ih]
      simp [List.filter_cons, h]
      omega

theorem eraseStep_cons_succ (b : FailedBatch) (rest : List FailedBatch)
    (i : Nat) : eraseStep (b :: rest) (i + 1) = b :: eraseStep rest i := by
  rw [eraseStep, eraseStep]
  by_cases h : i < rest.length
  · rw [if_pos (by simpa using Nat.succ_lt_succ h), if_pos h,
      List.eraseIdx_cons_succ]
  · rw [if_neg (by simp; omega), if_neg h]

theorem foldl_eraseStep_map_succ :
    ∀ (A : List Nat) (b : FailedBatch) (rest : List FailedBatch),
      (A.map (· + 1)).foldl eraseStep (b :: rest)
        = b :: A.foldl eraseStep rest := by
  intro A
  induction A with
  | nil => intro b rest; rfl
  | cons i A' ih =>
    intro b rest
    rw [List.map_cons, List.foldl_cons, List.foldl_cons, eraseStep_cons_succ]
    exact ih b (eraseStep rest i)

theorem removeSuccessful_range_filter :
    ∀ (l : List FailedBatch) (p : Nat → Bool),
      removeSuccessful l ((List.range l.length).filter p) = keepFailed p l := by
  intro l
  induction l with
  | nil => intro p; rfl
  | cons b rest ih =>
    intro p
    rw [removeSuccessful, keepFailed]
    have hrange : List.range (b :: rest).length
        = 0 :: (List.range rest.length).map (· + 1) := by
      rw [List.length_cons, List.range_succ_eq_map]
    have hfm : ((List.range rest.length).map (· + 1)).filter p
        = ((List.range rest.length).filter (fun i => p (i + 1))).map
            (· + 1) := by
      rw [List.filter_map]
      rfl
    have hrem : ∀ A : List Nat,
        (A.map (· + 1)).reverse.foldl eraseStep (b :: rest)
          = b :: removeSuccessful rest A := by
      intro A
      rw [← List.map_reverse, foldl_eraseStep_map_succ, removeSuccessful]
    rw [hrange, List.filter_cons]
    by_cases hp : p 0
    · rw [if_pos hp, hfm, List.reverse_cons, List.foldl_append, hrem]
      rw [List.foldl_cons, List.foldl_nil]
      rw [show eraseStep (b :: removeSuccessful rest
          ((List.range rest.length).filter (fun i => p (i + 1)))) 0
        = removeSuccessful rest
            ((List.range rest.length).filter (fun i => p (i + 1))) from by
        rw [eraseStep, if_pos (by simp), List.eraseIdx_cons_zero]]
      rw [ih, if_pos hp]
    · rw [if_neg hp, hfm, hrem, ih, if_neg hp]

theorem retry_if_remove (q : List FailedBatch) (idxs : List Nat) :
    (if 0 < idxs.length then removeSuccessful q idxs else q)
      = removeSuccessful q idxs := by
  cases idxs with
  | nil => simp [removeSuccessful]
  | cons a l => simp

/-- C4: after `RetryFailedBatches` returns (with no concurrent enqueues,
which the model assumes), the failed queue contains exactly those entries of
the pre-call queue whose resubmission (the inner retry loop of up to
`maxRetries` attempts) did not succeed, in their original relative order —
even though the code removes successful entries by original index iterating
the collected indices in reverse. -/
theorem retryFailedBatches_queue (renv : Nat → Nat → AttemptEnv)
    (maxRetries : Nat) (queue : List FailedBatch) :
    (RetryFailedBatches renv maxRetries queue).1
      = keepFailed
          (fun i => (submitLoop (fun k => renv i k) maxRetries 1).isSome)
          queue := by
  rw [RetryFailedBatches]
  by_cases hq : queue.length = 0
  · rw [if_pos hq]
    cases queue with
    | nil => rfl
    | cons b r => simp at hq
  · rw [if_neg hq]
    dsimp only
    have hscan : (retryScan renv maxRetries queue.length).1
        = (List.range queue.length).filter
            (fun i => (submitLoop (fun k => renv i k) maxRetries 1).isSome) := by
      rw [retryScan,
        foldl_scan_eq (fun i => submitLoop (fun k => renv i k) maxRetries 1)]
      simp
    rw [hscan, retry_if_remove, removeSuccessful_range_filter]

end Submitter

namespace Clob

/-- Thirteen orders, makers m0..m12, prices repeating 3,4,1,2, all
timestamps 1 (so price groups are key-tied). Orders m0, m4, m8, m12 share
the identical key (price 3, timestamp 1) and were admitted in that relative
order. -/
def c3ords : List Order :=
  [⟨"m0", "T", .num 100, .num 100, 3, 1, "s"⟩,
   ⟨"m1", "T", .num 100, .num 100, 4, 1, "s"⟩,
   ⟨"m2", "T", .num 100, .num 100, 1, 1, "s"⟩,
   ⟨"m3", "T", .num 100, .num 100, 2, 1, "s"⟩,
   ⟨"m4", "T", .num 100, .num 100, 3, 1, "s"⟩,
   ⟨"m5", "T", .num 100, .num 100, 4, 1, "s"⟩,
   ⟨"m6", "T", .num 100, .num 100, 1, 1, "s"⟩,
   ⟨"m7", "T", .num 100, .num 100, 2, 1, "s"⟩,
   ⟨"m8", "T", .num 100, .num 100, 3, 1, "s"⟩,
   ⟨"m9", "T", .num 100, .num 100, 4, 1, "s"⟩,
   ⟨"m10", "T", .num 100, .num 100, 1, 1, "s"⟩,
   ⟨"m11", "T", .num 100, .num 100, 2, 1, "s"⟩,
   ⟨"m12", "T", .num 100, .num 100, 3, 1, "s"⟩]

/-- Shorthand for the `c3ords` order fixtures. -/
def c3o (m : String) (p : ℚ) : Order := ⟨m, "T", .num 100, .num 100, p, 1, "s"⟩

/-- `c3ords` as the array `sort.Slice` mutates. -/
def c3arr : Array Order := c3ords.toArray

/-- `c3arr` after the top-level pdqsort partition around the pivot. -/
def c3parr : Array Order :=
  #[c3o "m8" 3, c3o "m1" 4, c3o "m12" 3, c3o "m0" 3, c3o "m4" 3, c3o "m5" 4,
    c3o "m9" 4, c3o "m3" 2, c3o "m7" 2, c3o "m6" 1, c3o "m10" 1, c3o "m11" 2,
    c3o "m2" 1]

/-- `c3parr` after the first recursive call (insertion sort of positions
8-12). -/
def c3arr2 : Array Order :=
  #[c3o "m8" 3, c3o "m1" 4, c3o "m12" 3, c3o "m0" 3, c3o "m4" 3, c3o "m5" 4,
    c3o "m9" 4, c3o "m3" 2, c3o "m7" 2, c3o "m11" 2, c3o "m6" 1, c3o "m10" 1,
    c3o "m2" 1]

/-- The fully sorted array (after the second recursive call, insertion sort
of positions 0-6). -/
def c3final : Array Order :=
  #[c3o "m1" 4, c3o "m5" 4, c3o "m9" 4, c3o "m8" 3, c3o "m12" 3, c3o "m0" 3,
    c3o "m4" 3, c3o "m3" 2, c3o "m7" 2, c3o "m11" 2, c3o "m6" 1, c3o "m10" 1,
    c3o "m2" 1]

set_option maxHeartbeats 1600000 in
theorem c3_prep :
    GoSort.pdqPrep ordLess c3arr 0 13 4 true true = ⟨c3arr, 4, 3, false⟩ := rfl

set_option maxHeartbeats 1600000 in
theorem c3_part :
    GoSort.partitionGo ordLess c3arr 0 13 3 = (c3parr, 7, false) := rfl

set_option maxHeartbeats 1600000 in
theorem c3_rec1 :
    GoSort.pdqsortGo ordLess 13 c3parr 8 13 4 true true = c3arr2 := rfl

set_option maxHeartbeats 1600000 in
theorem c3_rec2 :
    GoSort.pdqsortGo ordLess 13 c3arr2 0 7 4 true false = c3final := rfl

set_option maxHeartbeats 1600000 in
/-- C3: `sortOrders` does order this input by descending price (timestamps
are all equal), but it is NOT stable under equal keys: the four orders with
the identical key (price 3, timestamp 1), admitted as m0, m4, m8, m12, come
out as m8, m12, m0, m4, and the price-1 group flips likewise — Go
`sort.Slice` is an unstable pattern-defeating quicksort, and 13 elements
exceed its 12-element insertion-sort cutoff. -/
theorem sortOrders_unstable :
    c3ords.map (fun o => (o.maker, o.price, o.timestamp))
      = [("m0", 3, 1), ("m1", 4, 1), ("m2", 1, 1), ("m3", 2, 1),
         ("m4", 3, 1), ("m5", 4, 1), ("m6", 1, 1), ("m7", 2, 1),
         ("m8", 3, 1), ("m9", 4, 1), ("m10", 1, 1), ("m11", 2, 1),
         ("m12", 3, 1)] ∧
    (sortOrders c3ords).map Order.maker
      = ["m1", "m5", "m9", "m8", "m12", "m0", "m4", "m3", "m7", "m11",
         "m6", "m10", "m2"] := by
  constructor
  · rfl
  · have harr : c3ords.toArray = c3arr := rfl
    have hsz : c3arr.size = 13 := rfl
    have hbl : GoSort.bitsLen 13 = 4 := rfl
    rw [sortOrders, GoSort.sortSlice, harr, hsz, hbl, GoSort.pdqsortGo]
    dsimp only
    rw [if_neg (by decide), if_neg (by decide), c3_prep]
    dsimp only
    rw [if_neg (by decide), if_neg (by decide), c3_part]
    dsimp only
    rw [if_neg (by decide), c3_rec1]
    have hb : decide ((7 - 0) ⊓ (13 - 7) ≥ (13 - 0) / 8) = true := by decide
    rw [hb, c3_rec2]
    rfl

end Clob

/-!
## The order-intake HTTP server (`src/unnamed/part_000`)

The live server wires `handleOrders` to `POST /orders`.  The handler's
response depends only on the request method, whether the body decodes as an
order, and `validateOrder`; the matching pipeline it triggers afterwards
never changes the response.  An HTTP response is modelled as status code
plus the exact bytes written (`http.Error` appends a newline).
-/

namespace Server

open Clob

/-- Go `strconv.ParseFloat` on an amount string: the parsed value, with no
positivity check (unlike the matcher's `parseAmount`). -/
def parseFloat : AmountStr → Option ℚ
  | .num q => some q
  | .bad _ => none

/-- Go `validateOrder` (`src/unnamed/part_000`): empty-field checks in
source order, then the two amount checks, each failing when the string does
not parse or the value is non-positive. -/
def validateOrder (o : Order) : Except String Unit :=
  if o.maker = "" then .error "maker address cannot be empty"
  else if o.price ≤ 0 then .error "price must be positive"
  else if o.timestamp ≤ 0 then .error "timestamp must be positive"
  else if o.signature = "" then .error "signature cannot be empty"
  else if o.takerAsset = "" then .error "takerAsset cannot be empty"
  else if o.makeAmount = .bad "" then .error "makeAmount cannot be empty"
  else if o.takeAmount = .bad "" then .error "takeAmount cannot be empty"
  else
    match parseFloat o.makeAmount with
    | none => .error "makeAmount must be a positive number"
    | some makeAmt =>
      if makeAmt ≤ 0 then .error "makeAmount must be a positive number"
      else
        match parseFloat o.takeAmount with
        | none => .error "takeAmount must be a positive number"
        | some takeAmt =>
          if takeAmt ≤ 0 then .error "takeAmount must be a positive number"
          else .ok ()

/-- An HTTP response: status code and the exact bytes written. -/
structure HttpResp where
  status : Nat
  body : String
deriving DecidableEq

/-- Go `handleOrders` (`src/unnamed/part_000`): OPTIONS preflight 200;
non-POST 405; a body that fails to decode as an order (`none`) 400
"Invalid order"; a decoded order failing `validateOrder` the same 400; an
admitted order 200 success (the matching pipeline the handler then runs
does not alter the response). -/
def handleOrders (method : String) (body : Option Order) : HttpResp :=
  if method = "OPTIONS" then ⟨200, ""⟩
  else if method ≠ "POST" then ⟨405, "Method Not Allowed\n"⟩
  else
    match body with
    | none => ⟨400, "\x7b\"error\":\"Invalid order\"\x7d\n"⟩
    | some o =>
      match validateOrder o with
      | .error _ => ⟨400, "\x7b\"error\":\"Invalid order\"\x7d\n"⟩
      | .ok _ => ⟨200, "\x7b\"success\":true\x7d"⟩

/-- C9: `POST /orders` returns 200 with a success body exactly when the
decoded order passes validation; malformed JSON (an undecodable body) and
every validation failure return 400 with the "Invalid order" error body —
and validation succeeds precisely when no required string field is empty
and price, timestamp, makeAmount and takeAmount are all positive (amounts
parseable). -/
theorem handleOrders_responses (o : Order) :
    (handleOrders "POST" none
      = ⟨400, "\x7b\"error\":\"Invalid order\"\x7d\n"⟩) ∧
    (∀ e, validateOrder o = .error e →
      handleOrders "POST" (some o)
        = ⟨400, "\x7b\"error\":\"Invalid order\"\x7d\n"⟩) ∧
    (validateOrder o = .ok () →
      handleOrders "POST" (some o) = ⟨200, "\x7b\"success\":true\x7d"⟩) ∧
    (validateOrder o = .ok () ↔
      o.maker ≠ "" ∧ 0 < o.price ∧ 0 < o.timestamp ∧ o.signature ≠ "" ∧
      o.takerAsset ≠ "" ∧
      (∃ qm, parseFloat o.makeAmount = some qm ∧ 0 < qm) ∧
      (∃ qt, parseFloat o.takeAmount = some qt ∧ 0 < qt)) := by
  refine ⟨rfl, ?_, ?_, ?_⟩
  · intro e he
    rw [handleOrders]
    simp only [he]
    rfl
  · intro hok
    rw [handleOrders]
    simp only [hok]
    rfl
  · constructor
    · intro h
      rw [validateOrder] at h
      split_ifs at h with h1 h2 h3 h4 h5 h6 h7
      cases hm : parseFloat o.makeAmount with
      | none => rw [hm] at h; exact Except.noConfusion h
      | some qm =>
        rw [hm] at h
        dsimp only at h
        split_ifs at h with hqm
        cases ht : parseFloat o.takeAmount with
        | none => rw [ht] at h; exact Except.noConfusion h
        | some qt =>
          rw [ht] at h
          dsimp only at h
          split_ifs at h with hqt
          exact ⟨h1, not_le.mp h2, not_le.mp h3, h4, h5,
            ⟨qm, rfl, not_le.mp hqm⟩, ⟨qt, rfl, not_le.mp hqt⟩⟩
    · rintro ⟨h1, hp, ht0, h4, h5, ⟨qm, hqm, hqmp⟩, ⟨qt, hqt, hqtp⟩⟩
      have hm6 : ¬ o.makeAmount = .bad "" := by
        intro hb; rw [hb] at hqm; simp [parseFloat] at hqm
      have hm7 : ¬ o.takeAmount = .bad "" := by
        intro hb; rw [hb] at hqt; simp [parseFloat] at hqt
      rw [validateOrder, if_neg h1, if_neg (not_le.mpr hp),
        if_neg (not_le.mpr ht0), if_neg h4, if_neg h5, if_neg hm6,
        if_neg hm7, hqm]
      dsimp only
      rw [if_neg (not_le.mpr hqmp), hqt]
      dsimp only
      rw [if_neg (not_le.mpr hqtp)]

/-- A well-formed order: all fields present, positive numerics. -/
def c9good : Order := ⟨"0xmaker", "T", .num 100, .num 50, 2, 10, "sig"⟩

/-- An order failing validation: empty maker address. -/
def c9bad : Order := ⟨"", "T", .num 100, .num 50, 2, 10, "sig"⟩

/- Witness: a well-formed order is admitted with 200; an order with an empty
maker and an undecodable body are both rejected with 400. -/
theorem handleOrders_responses_witness :
    handleOrders "POST" (some c9good) = ⟨200, "\x7b\"success\":true\x7d"⟩ ∧
    handleOrders "POST" (some c9bad)
      = ⟨400, "\x7b\"error\":\"Invalid order\"\x7d\n"⟩ ∧
    handleOrders "POST" none
      = ⟨400, "\x7b\"error\":\"Invalid order\"\x7d\n"⟩ := by
  refine ⟨?_, ?_, (handleOrders_responses c9good).1⟩
  · exact (handleOrders_responses c9good).2.2.1 rfl
  · exact (handleOrders_responses c9bad).2.1 "maker address cannot be empty" rfl

end Server
